import Mathlib

/-!
A shallow embedding of `src/app_state.rs` (rustlings progress state machine).

Modelling choices, in correspondence with the source:

* The state file is a byte buffer split on the byte `b'\n'`.  We model the
  buffer as a `List Char` and exercise names as `String`s, converted at the
  boundary with `String.data`; since UTF-8 encodes `'\n'` as the single byte
  0x0A and never uses that byte inside a multi-byte sequence, splitting the
  byte buffer on `b'\n'` agrees with splitting the character list on `'\n'`.
* `n_done` is a `u16` in the source; we model it as a `Nat` and put an
  explicit `% 65536` at every mutation site.  Rust release builds use
  wrapping arithmetic, so `n_done -= 1` becomes `(n + 65535) % 65536` and
  `n_done += 1` becomes `(n + 1) % 65536`.
* Operations that can hit a Rust panic (out-of-bounds indexing or slicing,
  the `len - 1` underflow in `next_pending_exercise_ind`) return
  `RunResult.halt`; operations returning `anyhow::Result::Err` return
  `RunResult.err`.  The file-system write itself is abstracted as always
  succeeding; a successful persistence is reported as the serialized content.
* The scratch buffer `file_buf` is elided: the spec notes it is a
  performance detail and no claim mentions it.  The `welcome_message` and
  `final_message` strings are display-only and likewise elided.
* The externally supplied exercise runner is a parameter `runOk : Nat → Bool`
  giving the success of running the exercise at a given index, and the
  terminal writer side effects are dropped (they never fail in the model).
-/

namespace Rustlings

/-- Modelled from the spec: one curriculum item (the `Exercise` struct lives
in `exercise.rs`, which is not among the given sources; the spec lists its
fields as `name`, `path`, `mode`, `hint`, `done`, with `mode` an opaque tag). -/
structure Exercise where
  name : String
  path : String
  mode : String
  hint : String
  done : Bool
deriving DecidableEq

/-- Modelled from the spec: an exercise descriptor from the parsed info file
(`info_file.rs` is not among the given sources); construction turns each
descriptor into an `Exercise` with `done = false` and a trimmed hint. -/
structure ExerciseInfo where
  name : String
  path : String
  mode : String
  hint : String
deriving DecidableEq

/-- `ExercisesProgress` from `app_state.rs`. -/
inductive ExercisesProgress where
  | AllDone : ExercisesProgress
  | Pending : ExercisesProgress
deriving DecidableEq

/-- Result of running one of the Rust methods: `halt` models a Rust panic,
`err` models `anyhow::Result::Err`, `ok` models `Ok`. -/
inductive RunResult (α : Type) where
  | halt : RunResult α
  | err : String → RunResult α
  | ok : α → RunResult α
deriving DecidableEq

def RunResult.map (f : α → β) : RunResult α → RunResult β
  | .halt => .halt
  | .err e => .err e
  | .ok a => .ok (f a)

/-- The `AppState` struct (without the elided display strings and scratch
buffer, see the header comment). -/
structure AppState where
  current_exercise_ind : Nat
  exercises : List Exercise
  n_done : Nat
deriving DecidableEq

def BAD_INDEX_ERR : String :=
  "The current exercise index is higher than the number of exercises"

/-- `bytes.split(|c| *c == b'\n')`: split a buffer into newline-separated
chunks.  Like Rust's `split`, it always yields at least one chunk and an
empty buffer yields one empty chunk. -/
def splitOnNl : List Char → List (List Char)
  | [] => [[]]
  | c :: rest =>
    if c = '\n' then [] :: splitOnNl rest
    else
      match splitOnNl rest with
      | [] => [[c]]
      | chunk :: chunks => (c :: chunk) :: chunks

/-- The done-name collection loop of `update_from_file`: iterate the
remaining lines, stopping at the first empty one. -/
def collect_done : List (List Char) → List (List Char)
  | [] => []
  | l :: ls => if l.isEmpty then [] else l :: collect_done ls

/-- The single `enumerate` loop at the end of `update_from_file`: walking the
exercises, it marks an exercise done when its name is in the done set
(incrementing the `u16` counter), and records the index of any exercise whose
name equals line 1 into the cursor accumulator.  Returns the updated
exercises, the final counter and the final cursor. -/
def update_loop (current_name : List Char) (done_set : List (List Char)) :
    List Exercise → Nat → Nat → Nat → List Exercise × Nat × Nat
  | [], _, n_done, cur => ([], n_done, cur)
  | e :: es, ind, n_done, cur =>
    let isDone : Bool := decide (e.name.data ∈ done_set)
    let e' := if isDone then { e with done := true } else e
    let n_done' := if isDone then (n_done + 1) % 65536 else n_done
    let cur' := if e.name.data = current_name then ind else cur
    let (es', n, c) := update_loop current_name done_set es (ind + 1) n_done' cur'
    (e' :: es', n, c)

/-- `AppState::update_from_file`.  The file system read is passed in as
`file : Option (List Char)`; `none` covers a missing or unreadable file. -/
def AppState.update_from_file (s : AppState) (file : Option (List Char)) : AppState :=
  let s0 := { s with n_done := 0 }
  match file with
  | none => s0
  | some content =>
    match splitOnNl content with
    | [] => s0
    | [_] => s0
    | current_name :: _ :: rest =>
      let done_set := collect_done rest
      let (exercises', n_done', cur') :=
        update_loop current_name done_set s0.exercises 0 s0.n_done s0.current_exercise_ind
      { current_exercise_ind := cur', exercises := exercises', n_done := n_done' }

/-- The descriptor-to-exercise conversion in `AppState::new`. -/
def mkExercise (info : ExerciseInfo) : Exercise :=
  { name := info.name, path := info.path, mode := info.mode,
    hint := info.hint.trim, done := false }

/-- `AppState::new`: build the registry with everything pending, the cursor
at 0 and `n_done = 0`, then reconcile from the (possibly absent) state file. -/
def AppState.new (info : List ExerciseInfo) (file : Option (List Char)) : AppState :=
  let slf : AppState :=
    { current_exercise_ind := 0, exercises := info.map mkExercise, n_done := 0 }
  slf.update_from_file file

/-- The serialization loop of `AppState::write`: one line per done exercise. -/
def doneLines : List Exercise → List Char
  | [] => []
  | e :: es => (if e.done then e.name.data ++ ['\n'] else []) ++ doneLines es

/-- `AppState::write`: serialize the current exercise name, an empty line,
then the done exercise names.  `self.current_exercise()` indexes
`exercises[current_exercise_ind]` and panics when out of bounds.  The
file-system write is abstracted as succeeding; the result is the content
written to the state file. -/
def AppState.write (s : AppState) : RunResult (List Char) :=
  match s.exercises[s.current_exercise_ind]? with
  | none => .halt
  | some cur => .ok (cur.name.data ++ ['\n', '\n'] ++ doneLines s.exercises)

/-- `AppState::set_current_exercise_ind`. -/
def AppState.set_current_exercise_ind (s : AppState) (ind : Nat) :
    RunResult (AppState × List Char) :=
  if s.exercises.length ≤ ind then .err BAD_INDEX_ERR
  else
    let s' := { s with current_exercise_ind := ind }
    s'.write.map fun c => (s', c)

/-- `Iterator::position`: index of the first element satisfying the
predicate. -/
def position (p : α → Bool) : List α → Option Nat
  | [] => none
  | a :: as' => if p a then some 0 else (position p as').map (· + 1)

/-- `AppState::set_current_exercise_by_name`. -/
def AppState.set_current_exercise_by_name (s : AppState) (name : String) :
    RunResult (AppState × List Char) :=
  match position (fun e => e.name == name) s.exercises with
  | none => .err ("No exercise found for " ++ name ++ "!")
  | some ind =>
    let s' := { s with current_exercise_ind := ind }
    s'.write.map fun c => (s', c)

/-- `AppState::set_pending`.  The optional `List Char` in the result is the
persisted state-file content, `none` when nothing was written. -/
def AppState.set_pending (s : AppState) (ind : Nat) :
    RunResult (AppState × Option (List Char)) :=
  match s.exercises[ind]? with
  | none => .err BAD_INDEX_ERR
  | some exercise =>
    if exercise.done then
      let s' := { s with exercises := s.exercises.set ind { exercise with done := false },
                         n_done := (s.n_done + 65535) % 65536 }
      s'.write.map fun c => (s', some c)
    else .ok (s, none)

/-- `&self.exercises[i..]` (a Rust slice from `i`): panics when
`i > len`, otherwise drops the first `i` elements. -/
def slice_from (l : List Exercise) (i : Nat) : Option (List Exercise) :=
  if i ≤ l.length then some (l.drop i) else none

/-- `&self.exercises[..i]` (a Rust slice up to `i`): panics when `i > len`,
otherwise takes the first `i` elements. -/
def slice_to (l : List Exercise) (i : Nat) : Option (List Exercise) :=
  if i ≤ l.length then some (l.take i) else none

/-- `AppState::next_pending_exercise_ind`.  The outer `Option` is `none` on a
Rust panic: with an empty registry, `self.exercises.len() - 1` underflows
(debug panic), and in release mode the wrapped comparison sends every
possible cursor into a slicing expression that is out of range, so the call
panics either way; we also surface out-of-range slice panics for a cursor
beyond the registry. -/
def AppState.next_pending_exercise_ind (s : AppState) : Option (Option Nat) :=
  if s.exercises.length = 0 then none
  else if s.current_exercise_ind = s.exercises.length - 1 then
    (slice_to s.exercises s.current_exercise_ind).map fun l0 =>
      position (fun e => !e.done) l0
  else
    (slice_from s.exercises (s.current_exercise_ind + 1)).bind fun l1 =>
      (slice_to s.exercises s.current_exercise_ind).map fun l0 =>
        match position (fun e => !e.done) l1 with
        | some ind => some (s.current_exercise_ind + 1 + ind)
        | none => position (fun e => !e.done) l0

/-- Step 1 of `done_current_exercise`: mark the current exercise done if it
is not already, incrementing the `u16` counter. -/
def AppState.markCurrentDone (s : AppState) : AppState :=
  match s.exercises[s.current_exercise_ind]? with
  | none => s
  | some e =>
    if e.done then s
    else { s with exercises := s.exercises.set s.current_exercise_ind { e with done := true },
                  n_done := (s.n_done + 1) % 65536 }

/-- `self.exercises[i].done = d`; at every call site the loop guarantees
`i < len` (Rust would panic otherwise). -/
def set_exercise_done (l : List Exercise) (i : Nat) (d : Bool) : List Exercise :=
  match l[i]? with
  | some e => l.set i { e with done := d }
  | none => l

/-- The verification loop of `done_current_exercise`: run the exercises in
registry order (the list argument is the suffix still to visit, `ind` the
index of its head).  On the first failure, point the cursor at the failed
exercise, force it back to pending with a `u16` decrement, persist and
report `Pending`; if every run succeeds, report `AllDone` without writing. -/
def verify_loop (s : AppState) (runOk : Nat → Bool) :
    List Exercise → Nat → RunResult (AppState × ExercisesProgress × Option (List Char))
  | [], _ => .ok (s, .AllDone, none)
  | _ :: rest, ind =>
    if runOk ind then verify_loop s runOk rest (ind + 1)
    else
      let s' := { s with current_exercise_ind := ind,
                         exercises := set_exercise_done s.exercises ind false,
                         n_done := (s.n_done + 65535) % 65536 }
      s'.write.map fun c => (s', .Pending, some c)

/-- `AppState::done_current_exercise`.  The initial `&mut self.exercises[..]`
indexing panics when the cursor is out of bounds; the runner outcome for the
exercise at index `i` is `runOk i`. -/
def AppState.done_current_exercise (s : AppState) (runOk : Nat → Bool) :
    RunResult (AppState × ExercisesProgress × Option (List Char)) :=
  match s.exercises[s.current_exercise_ind]? with
  | none => .halt
  | some _ =>
    let s1 := s.markCurrentDone
    match s1.next_pending_exercise_ind with
    | none => .halt
    | some (some ind) =>
      (s1.set_current_exercise_ind ind).map fun sc => (sc.1, ExercisesProgress.Pending, some sc.2)
    | some none => verify_loop s1 runOk s1.exercises 0

/-- The done flag of the exercise at index `i`, `true` out of range (so that
"every index is done" statements quantify only over real indices). -/
def doneAt (l : List Exercise) (i : Nat) : Bool :=
  match l[i]? with
  | some e => e.done
  | none => true

/-- The number of exercises with `done == true`. -/
def count_done : List Exercise → Nat
  | [] => 0
  | e :: es => (if e.done then 1 else 0) + count_done es

/-! ### Concrete states used in witnesses and counterexamples -/

/-- The spec's running example `[A(done), B(pending), C(done), D(pending)]`
with the cursor on `C`. -/
def demoABCD : AppState :=
  { current_exercise_ind := 2,
    exercises :=
      [⟨"A", "", "", "", true⟩, ⟨"B", "", "", "", false⟩,
       ⟨"C", "", "", "", true⟩, ⟨"D", "", "", "", false⟩],
    n_done := 2 }

/-- A fully done two-exercise state with the cursor on the second exercise
(the spec's all-done scenario `[A(done), B(done)]`). -/
def demoAllDone : AppState :=
  { current_exercise_ind := 1,
    exercises := [⟨"A", "", "", "", true⟩, ⟨"B", "", "", "", true⟩],
    n_done := 2 }

/-- A fully done three-exercise state used for the regression scenario. -/
def demoRegress : AppState :=
  { current_exercise_ind := 0,
    exercises :=
      [⟨"A", "", "", "", true⟩, ⟨"B", "", "", "", true⟩, ⟨"C", "", "", "", true⟩],
    n_done := 3 }

/-- A state whose single exercise has the empty name and is done; writing it
and reloading loses the done flag, refuting the round-trip claim as stated. -/
def emptyNameState : AppState :=
  { current_exercise_ind := 0, exercises := [⟨"", "", "", "", true⟩], n_done := 1 }

/-- A registry descriptor list matching `emptyNameState`. -/
def emptyNameInfo : List ExerciseInfo := [⟨"", "", "", ""⟩]

/-- A done exercise used to build large states. -/
def doneEx : Exercise := ⟨"d", "", "", "", true⟩

/-- A state with 65536 exercises, 65535 of them done and the pending one
current: marking the current exercise done overflows the 16-bit `n_done`. -/
def overflowState : AppState :=
  { current_exercise_ind := 0,
    exercises := ⟨"p", "", "", "", false⟩ :: List.replicate 65535 doneEx,
    n_done := 65535 }

/-- `overflowState` after its current exercise is marked done: every
exercise is done but the wrapped counter reads 0. -/
def overflowDone : AppState :=
  { current_exercise_ind := 0,
    exercises := ⟨"p", "", "", "", true⟩ :: List.replicate 65535 doneEx,
    n_done := 0 }

/-- The number of exercises whose name is in the done set (the quantity the
reconciliation loop accumulates into the `u16` counter). -/
def count_match (ds : List (List Char)) : List Exercise → Nat
  | [] => 0
  | e :: es => (if e.name.data ∈ ds then 1 else 0) + count_match ds es

/-- The names of the done exercises, in registry order (the lines the state
file's done section carries). -/
def done_names : List Exercise → List (List Char)
  | [] => []
  | e :: es => (if e.done then [e.name.data] else []) ++ done_names es

/-! ### Helper lemmas about `position` -/

theorem position_spec {p : α → Bool} :
    ∀ {l : List α} {j : Nat}, position p l = some j →
      j < l.length ∧ (∃ e, l[j]? = some e ∧ p e = true) ∧
        ∀ i, i < j → ∀ e, l[i]? = some e → p e = false := by
  intro l
  induction l with
  | nil => intro j h; simp [position] at h
  | cons a as ih =>
    intro j h
    by_cases hp : p a
    · simp [position, hp] at h
      subst h
      exact ⟨Nat.succ_pos _, ⟨a, by simp, hp⟩, fun i hi => absurd hi (Nat.not_lt_zero i)⟩
    · simp [position, hp] at h
      obtain ⟨j', hj', rfl⟩ := h
      obtain ⟨hlt, ⟨e, he, hpe⟩, hmin⟩ := ih hj'
      refine ⟨Nat.succ_lt_succ hlt, ⟨e, by simpa using he, hpe⟩, ?_⟩
      intro i hi e' he'
      match i with
      | 0 =>
        simp at he'
        subst he'
        simpa using hp
      | i + 1 =>
        exact hmin i (Nat.lt_of_succ_lt_succ hi) e' (by simpa using he')

theorem position_eq_none {p : α → Bool} :
    ∀ {l : List α}, position p l = none → ∀ a ∈ l, p a = false := by
  intro l
  induction l with
  | nil => intro _ a ha; cases ha
  | cons b bs ih =>
    intro h a ha
    by_cases hp : p b
    · simp [position, hp] at h
    · simp [position, hp] at h
      rcases List.mem_cons.1 ha with rfl | ha
      · simpa using hp
      · exact ih (by simpa [position] using h) a ha

theorem position_isSome {p : α → Bool} :
    ∀ {l : List α} {i : Nat} {e : α}, l[i]? = some e → p e = true →
      ∃ j, position p l = some j ∧ j ≤ i := by
  intro l
  induction l with
  | nil => intro i e h; simp at h
  | cons a as ih =>
    intro i e h hp
    by_cases hpa : p a
    · exact ⟨0, by simp [position, hpa], Nat.zero_le i⟩
    · match i with
      | 0 =>
        simp at h
        subst h
        exact absurd hp (by simpa using hpa)
      | i + 1 =>
        obtain ⟨j, hj, hji⟩ := ih (by simpa using h) hp
        exact ⟨j + 1, by simp [position, hpa, hj], Nat.succ_le_succ hji⟩

theorem mem_of_getElem? {l : List α} {i : Nat} {a : α} (h : l[i]? = some a) : a ∈ l :=
  List.mem_iff_getElem?.2 ⟨i, h⟩

/-! ### Helper lemmas about `doneAt` -/

theorem doneAt_eq_false_iff {l : List Exercise} {i : Nat} :
    doneAt l i = false ↔ ∃ e, l[i]? = some e ∧ e.done = false := by
  unfold doneAt
  cases h : l[i]? with
  | none => simp
  | some e => simp

theorem doneAt_eq_true_of_getElem? {l : List Exercise} {i : Nat} {e : Exercise}
    (h : l[i]? = some e) (hd : e.done = true) : doneAt l i = true := by
  unfold doneAt
  rw [h]
  exact hd

theorem doneAt_of_ge {l : List Exercise} {i : Nat} (h : l.length ≤ i) :
    doneAt l i = true := by
  unfold doneAt
  rw [List.getElem?_eq_none h]

theorem all_done_of_forall_doneAt {l : List Exercise}
    (h : ∀ i, i < l.length → doneAt l i = true) : ∀ e ∈ l, e.done = true := by
  intro e he
  obtain ⟨i, hi, rfl⟩ := List.mem_iff_getElem.1 he
  have := h i hi
  unfold doneAt at this
  rwa [List.getElem?_eq_getElem hi] at this

/-! ### Unfolding lemmas for `next_pending_exercise_ind` -/

theorem next_pending_last {s : AppState}
    (h0 : ¬s.exercises.length = 0)
    (hlast : s.current_exercise_ind = s.exercises.length - 1) :
    s.next_pending_exercise_ind =
      some (position (fun e => !e.done) (s.exercises.take s.current_exercise_ind)) := by
  unfold AppState.next_pending_exercise_ind
  rw [if_neg h0, if_pos hlast]
  have h : s.current_exercise_ind ≤ s.exercises.length := by omega
  simp [slice_to, h]

theorem next_pending_mid {s : AppState}
    (h0 : ¬s.exercises.length = 0)
    (hlast : ¬s.current_exercise_ind = s.exercises.length - 1)
    (hcur : s.current_exercise_ind < s.exercises.length) :
    s.next_pending_exercise_ind =
      some (match position (fun e => !e.done) (s.exercises.drop (s.current_exercise_ind + 1)) with
            | some ind => some (s.current_exercise_ind + 1 + ind)
            | none => position (fun e => !e.done) (s.exercises.take s.current_exercise_ind)) := by
  unfold AppState.next_pending_exercise_ind
  rw [if_neg h0, if_neg hlast]
  have h1 : s.current_exercise_ind + 1 ≤ s.exercises.length := hcur
  have h2 : s.current_exercise_ind ≤ s.exercises.length := Nat.le_of_lt hcur
  simp [slice_from, slice_to, h1, h2]

/-- C1: for a state whose cursor is in range (the program invariant) and
which has a pending exercise other than the current one, the
next-pending-exercise computation succeeds and returns the first pending
index in the half-open range `(current, len)`; if that range has none, the
first pending index in `[0, current)`.  The current index itself is never
returned. -/
theorem C1_next_pending_circular_scan (s : AppState)
    (hcur : s.current_exercise_ind < s.exercises.length)
    (hpend : ∃ i, i < s.exercises.length ∧ i ≠ s.current_exercise_ind ∧
      doneAt s.exercises i = false) :
    ∃ j, s.next_pending_exercise_ind = some (some j) ∧
      j ≠ s.current_exercise_ind ∧ j < s.exercises.length ∧
      doneAt s.exercises j = false ∧
      ((s.current_exercise_ind < j ∧
          ∀ i, s.current_exercise_ind < i → i < j → doneAt s.exercises i = true) ∨
       (j < s.current_exercise_ind ∧
          (∀ i, s.current_exercise_ind < i → i < s.exercises.length →
            doneAt s.exercises i = true) ∧
          ∀ i, i < j → doneAt s.exercises i = true)) := by
  obtain ⟨i0, hi0len, hi0ne, hi0pend⟩ := hpend
  have hlen0 : ¬s.exercises.length = 0 := by omega
  by_cases hlast : s.current_exercise_ind = s.exercises.length - 1
  · -- The cursor is on the last exercise: only the wrap search runs,
    -- and the range (current, len) is empty.
    have hi0cur : i0 < s.current_exercise_ind := by omega
    obtain ⟨e0, he0, he0d⟩ := doneAt_eq_false_iff.1 hi0pend
    have htake : (s.exercises.take s.current_exercise_ind)[i0]? = some e0 := by
      rw [List.getElem?_take, if_pos hi0cur]; exact he0
    obtain ⟨j, hj, -⟩ := position_isSome (p := fun e => !e.done) htake (by simp [he0d])
    obtain ⟨hjlt, ⟨e, he, hpe⟩, hmin⟩ := position_spec hj
    have hjcur : j < s.current_exercise_ind := by
      rw [List.length_take] at hjlt
      exact Nat.lt_of_lt_of_le hjlt (Nat.min_le_left _ _)
    have heL : s.exercises[j]? = some e := by
      rw [List.getElem?_take, if_pos hjcur] at he; exact he
    refine ⟨j, ?_, by omega, by omega,
      doneAt_eq_false_iff.2 ⟨e, heL, by simpa using hpe⟩,
      Or.inr ⟨hjcur, ?_, ?_⟩⟩
    · rw [next_pending_last hlen0 hlast, hj]
    · intro i hi1 hi2
      exact absurd rfl (by omega : ¬(0 : Nat) = 0)
    · intro i hi
      have hic : i < s.current_exercise_ind := by omega
      have hilen : i < s.exercises.length := by omega
      obtain ⟨e', he'⟩ : ∃ e', s.exercises[i]? = some e' :=
        ⟨_, List.getElem?_eq_getElem hilen⟩
      have htk : (s.exercises.take s.current_exercise_ind)[i]? = some e' := by
        rw [List.getElem?_take, if_pos hic]; exact he'
      have := hmin i hi e' htk
      exact doneAt_eq_true_of_getElem? he' (by simpa using this)
  · -- The cursor is not last: search (current, len) first, then wrap.
    rw [next_pending_mid hlen0 hlast hcur]
    cases hdrop : position (fun e => !e.done)
        (s.exercises.drop (s.current_exercise_ind + 1)) with
    | some k =>
      obtain ⟨hklt, ⟨e, he, hpe⟩, hmin⟩ := position_spec hdrop
      have hklen : s.current_exercise_ind + 1 + k < s.exercises.length := by
        rw [List.length_drop] at hklt; omega
      have heL : s.exercises[s.current_exercise_ind + 1 + k]? = some e := by
        rw [List.getElem?_drop] at he; exact he
      refine ⟨s.current_exercise_ind + 1 + k, by simp [hdrop], by omega, hklen,
        doneAt_eq_false_iff.2 ⟨e, heL, by simpa using hpe⟩,
        Or.inl ⟨by omega, ?_⟩⟩
      intro i hi1 hi2
      have hik : i - (s.current_exercise_ind + 1) < k := by omega
      have hilen : i < s.exercises.length := by omega
      obtain ⟨e', he'⟩ : ∃ e', s.exercises[i]? = some e' :=
        ⟨_, List.getElem?_eq_getElem hilen⟩
      have hidx : s.current_exercise_ind + 1 + (i - (s.current_exercise_ind + 1)) = i := by
        omega
      have hdr : (s.exercises.drop (s.current_exercise_ind + 1))[i - (s.current_exercise_ind + 1)]? = some e' := by
        rw [List.getElem?_drop, hidx]; exact he'
      have := hmin _ hik e' hdr
      exact doneAt_eq_true_of_getElem? he' (by simpa using this)
    | none =>
      have hafter : ∀ i, s.current_exercise_ind < i → i < s.exercises.length →
          doneAt s.exercises i = true := by
        intro i hi1 hi2
        obtain ⟨e', he'⟩ : ∃ e', s.exercises[i]? = some e' :=
          ⟨_, List.getElem?_eq_getElem hi2⟩
        have hidx : s.current_exercise_ind + 1 + (i - (s.current_exercise_ind + 1)) = i := by
          omega
        have hmem : e' ∈ s.exercises.drop (s.current_exercise_ind + 1) := by
          apply mem_of_getElem? (i := i - (s.current_exercise_ind + 1))
          rw [List.getElem?_drop, hidx]; exact he'
        have := position_eq_none hdrop e' hmem
        exact doneAt_eq_true_of_getElem? he' (by simpa using this)
      have hi0cur : i0 < s.current_exercise_ind := by
        rcases Nat.lt_trichotomy i0 s.current_exercise_ind with h | h | h
        · exact h
        · exact absurd h hi0ne
        · have := hafter i0 h hi0len
          rw [hi0pend] at this
          exact absurd this (by simp)
      obtain ⟨e0, he0, he0d⟩ := doneAt_eq_false_iff.1 hi0pend
      have htake : (s.exercises.take s.current_exercise_ind)[i0]? = some e0 := by
        rw [List.getElem?_take, if_pos hi0cur]; exact he0
      obtain ⟨j, hj, -⟩ := position_isSome (p := fun e => !e.done) htake (by simp [he0d])
      obtain ⟨hjlt, ⟨e, he, hpe⟩, hmin⟩ := position_spec hj
      have hjcur : j < s.current_exercise_ind := by
        rw [List.length_take] at hjlt
        exact Nat.lt_of_lt_of_le hjlt (Nat.min_le_left _ _)
      have heL : s.exercises[j]? = some e := by
        rw [List.getElem?_take, if_pos hjcur] at he; exact he
      refine ⟨j, by simp [hdrop, hj], by omega, by omega,
        doneAt_eq_false_iff.2 ⟨e, heL, by simpa using hpe⟩,
        Or.inr ⟨hjcur, hafter, ?_⟩⟩
      intro i hi
      have hic : i < s.current_exercise_ind := by omega
      have hilen : i < s.exercises.length := by omega
      obtain ⟨e', he'⟩ : ∃ e', s.exercises[i]? = some e' :=
        ⟨_, List.getElem?_eq_getElem hilen⟩
      have htk : (s.exercises.take s.current_exercise_ind)[i]? = some e' := by
        rw [List.getElem?_take, if_pos hic]; exact he'
      have := hmin i hi e' htk
      exact doneAt_eq_true_of_getElem? he' (by simpa using this)

/-- Witness for C1: the spec's `[A(done), B(pending), C(done), D(pending)]`
example with the cursor on `C` (index 2). -/
theorem C1_next_pending_circular_scan_witness :
    ∃ j, demoABCD.next_pending_exercise_ind = some (some j) ∧
      j ≠ demoABCD.current_exercise_ind ∧ j < demoABCD.exercises.length ∧
      doneAt demoABCD.exercises j = false ∧
      ((demoABCD.current_exercise_ind < j ∧
          ∀ i, demoABCD.current_exercise_ind < i → i < j → doneAt demoABCD.exercises i = true) ∨
       (j < demoABCD.current_exercise_ind ∧
          (∀ i, demoABCD.current_exercise_ind < i → i < demoABCD.exercises.length →
            doneAt demoABCD.exercises i = true) ∧
          ∀ i, i < j → doneAt demoABCD.exercises i = true)) :=
  C1_next_pending_circular_scan demoABCD (by decide) ⟨3, by decide⟩

/-! ### Helper lemmas about marking, verification and counting -/

theorem position_eq_none_of {p : α → Bool} :
    ∀ {l : List α}, (∀ a ∈ l, p a = false) → position p l = none := by
  intro l
  induction l with
  | nil => intro _; rfl
  | cons a as ih =>
    intro h
    have ha := h a (List.mem_cons_self a as)
    simp [position, ha, ih fun b hb => h b (List.mem_cons_of_mem _ hb)]

theorem next_pending_none_of_all_done {s : AppState}
    (hcur : s.current_exercise_ind < s.exercises.length)
    (hall : ∀ e ∈ s.exercises, e.done = true) :
    s.next_pending_exercise_ind = some none := by
  have hnone : ∀ l', l' ⊆ s.exercises → position (fun e => !e.done) l' = none := by
    intro l' hsub
    exact position_eq_none_of fun a ha => by simp [hall a (hsub ha)]
  have hlen0 : ¬s.exercises.length = 0 := by omega
  by_cases hlast : s.current_exercise_ind = s.exercises.length - 1
  · rw [next_pending_last hlen0 hlast, hnone _ (List.take_subset _ _)]
  · rw [next_pending_mid hlen0 hlast hcur, hnone _ (List.drop_subset _ _),
      hnone _ (List.take_subset _ _)]

theorem markCurrentDone_of_done {s : AppState} {e : Exercise}
    (h : s.exercises[s.current_exercise_ind]? = some e) (hd : e.done = true) :
    s.markCurrentDone = s := by
  unfold AppState.markCurrentDone
  rw [h]
  simp [hd]

theorem markCurrentDone_current_exercise_ind (s : AppState) :
    s.markCurrentDone.current_exercise_ind = s.current_exercise_ind := by
  unfold AppState.markCurrentDone
  cases h : s.exercises[s.current_exercise_ind]? with
  | none => rfl
  | some e => by_cases hd : e.done <;> simp [hd]

theorem markCurrentDone_length (s : AppState) :
    s.markCurrentDone.exercises.length = s.exercises.length := by
  unfold AppState.markCurrentDone
  cases h : s.exercises[s.current_exercise_ind]? with
  | none => rfl
  | some e => by_cases hd : e.done <;> simp [hd]

theorem markCurrentDone_doneAt_self {s : AppState}
    (hcur : s.current_exercise_ind < s.exercises.length) :
    doneAt s.markCurrentDone.exercises s.current_exercise_ind = true := by
  unfold AppState.markCurrentDone
  rw [List.getElem?_eq_getElem hcur]
  by_cases hd : s.exercises[s.current_exercise_ind].done
  · simp only [if_pos hd]
    exact doneAt_eq_true_of_getElem? (List.getElem?_eq_getElem hcur) hd
  · simp only [if_neg hd]
    exact doneAt_eq_true_of_getElem?
      (List.getElem?_set_self (by simpa using hcur)) rfl

theorem markCurrentDone_doneAt_ne {s : AppState} {i : Nat}
    (h : ¬s.current_exercise_ind = i) :
    doneAt s.markCurrentDone.exercises i = doneAt s.exercises i := by
  unfold AppState.markCurrentDone
  cases hc : s.exercises[s.current_exercise_ind]? with
  | none => rfl
  | some e =>
    by_cases hd : e.done
    · simp [hd]
    · simp only [if_neg hd]
      unfold doneAt
      rw [List.getElem?_set_ne h]

theorem markCurrentDone_n_done_of_pending {s : AppState} {e : Exercise}
    (h : s.exercises[s.current_exercise_ind]? = some e) (hd : e.done = false) :
    s.markCurrentDone.n_done = (s.n_done + 1) % 65536 := by
  unfold AppState.markCurrentDone
  rw [h]
  simp [hd]

theorem verify_loop_all_ok (s : AppState) (runOk : Nat → Bool)
    (h : ∀ i, runOk i = true) :
    ∀ (l : List Exercise) (ind : Nat),
      verify_loop s runOk l ind = .ok (s, .AllDone, none) := by
  intro l
  induction l with
  | nil => intro ind; rfl
  | cons e es ih => intro ind; simp [verify_loop, h ind, ih (ind + 1)]

theorem done_current_exercise_verify {s : AppState} {e : Exercise} (runOk : Nat → Bool)
    (hcur : s.exercises[s.current_exercise_ind]? = some e)
    (hnp : s.markCurrentDone.next_pending_exercise_ind = some none) :
    s.done_current_exercise runOk =
      verify_loop s.markCurrentDone runOk s.markCurrentDone.exercises 0 := by
  unfold AppState.done_current_exercise
  rw [hcur]
  simp only [hnp]

theorem count_done_le_length : ∀ l : List Exercise, count_done l ≤ l.length := by
  intro l
  induction l with
  | nil => exact Nat.le_refl 0
  | cons e es ih =>
    simp only [count_done, List.length_cons]
    by_cases hd : e.done <;> simp [hd] <;> omega

theorem count_done_pos_of_mem {l : List Exercise} {e : Exercise}
    (he : e ∈ l) (hd : e.done = true) : 0 < count_done l := by
  induction l with
  | nil => cases he
  | cons a as ih =>
    rcases List.mem_cons.1 he with rfl | hmem
    · simp [count_done, hd]
    · simp only [count_done]
      have := ih hmem
      omega

/-- `u16` wrapping decrement agrees with `Nat` subtraction below the wrap. -/
theorem u16_sub_one {n : Nat} (h1 : 1 ≤ n) (h2 : n < 65536) :
    (n + 65535) % 65536 = n - 1 := by
  have : n + 65535 = (n - 1) + 1 * 65536 := by omega
  rw [this, Nat.add_mul_mod_self_right, Nat.mod_eq_of_lt (by omega)]

theorem set_exercise_done_length (l : List Exercise) (i : Nat) (d : Bool) :
    (set_exercise_done l i d).length = l.length := by
  unfold set_exercise_done
  cases h : l[i]? <;> simp

theorem set_exercise_done_getElem?_self {l : List Exercise} {i : Nat} {e : Exercise}
    (h : l[i]? = some e) (d : Bool) :
    (set_exercise_done l i d)[i]? = some { e with done := d } := by
  unfold set_exercise_done
  rw [h]
  obtain ⟨hi, -⟩ := List.getElem?_eq_some.1 h
  exact List.getElem?_set_self (by simpa using hi)

theorem set_exercise_done_getElem?_ne {l : List Exercise} {i j : Nat} (d : Bool)
    (h : ¬i = j) : (set_exercise_done l i d)[j]? = l[j]? := by
  unfold set_exercise_done
  cases hi : l[i]? with
  | none => rfl
  | some e => exact List.getElem?_set_ne h

theorem verify_loop_first_fail (s : AppState) (runOk : Nat → Bool) (k : Nat)
    (hfail : runOk k = false) :
    ∀ (l : List Exercise) (ind : Nat), k < ind + l.length → ind ≤ k →
      (∀ i, ind ≤ i → i < k → runOk i = true) →
      verify_loop s runOk l ind =
        (let s' : AppState :=
          { current_exercise_ind := k,
            exercises := set_exercise_done s.exercises k false,
            n_done := (s.n_done + 65535) % 65536 }
         s'.write.map fun c => (s', .Pending, some c)) := by
  intro l
  induction l with
  | nil =>
    intro ind h1 h2 h3
    exact absurd h2 (by simp at h1; omega)
  | cons e es ih =>
    intro ind h1 h2 h3
    by_cases hik : ind = k
    · subst hik
      simp [verify_loop, hfail]
    · have hok : runOk ind = true := h3 ind (Nat.le_refl ind) (by omega)
      simp only [verify_loop, hok, if_pos]
      exact ih (ind + 1) (by simp at h1 ⊢; omega) (by omega)
        (fun i hi1 hi2 => h3 i (by omega) hi2)

/-- C5: when every exercise besides the current one is already done and every
run of the verification pass succeeds, `done_current_exercise` reports
`AllDone`, persists nothing, and the final state is exactly the state after
step 1 (marking the current exercise done) — no further mutation of the
cursor, the flags or `n_done`. -/
theorem C5_all_done_reports_all_done (s : AppState) (runOk : Nat → Bool)
    (hcur : s.current_exercise_ind < s.exercises.length)
    (hrest : ∀ i, i < s.exercises.length → ¬i = s.current_exercise_ind →
      doneAt s.exercises i = true)
    (hrun : ∀ i, runOk i = true) :
    s.done_current_exercise runOk = .ok (s.markCurrentDone, .AllDone, none) := by
  have hcur' : ∃ e, s.exercises[s.current_exercise_ind]? = some e :=
    ⟨_, List.getElem?_eq_getElem hcur⟩
  obtain ⟨e, he⟩ := hcur'
  have hall : ∀ e' ∈ s.markCurrentDone.exercises, e'.done = true := by
    apply all_done_of_forall_doneAt
    intro i hi
    rw [markCurrentDone_length] at hi
    by_cases hic : s.current_exercise_ind = i
    · rw [← hic]
      exact markCurrentDone_doneAt_self hcur
    · rw [markCurrentDone_doneAt_ne hic]
      exact hrest i hi fun h => hic h.symm
  have hnp : s.markCurrentDone.next_pending_exercise_ind = some none :=
    next_pending_none_of_all_done
      (by rw [markCurrentDone_current_exercise_ind, markCurrentDone_length]; exact hcur)
      hall
  rw [done_current_exercise_verify runOk he hnp, verify_loop_all_ok _ _ hrun]

/-- Witness for C5: the spec's `[A(done), B(done)]` scenario with the cursor
on `B` and both runs succeeding. -/
theorem C5_all_done_reports_all_done_witness :
    demoAllDone.done_current_exercise (fun _ => true) =
      .ok (demoAllDone.markCurrentDone, .AllDone, none) :=
  C5_all_done_reports_all_done demoAllDone (fun _ => true) (by decide) (by decide)
    (fun _ => rfl)

/-- C3: in the verification pass (entered with everything done), if the runs
succeed strictly before index `k` and fail at `k`, then the call returns
`Pending`, persists, and the final state has the cursor on `k`, the exercise
at `k` forced back to pending, `n_done` decremented by exactly one, and all
exercises before `k` still done. -/
theorem C3_verification_regression (s : AppState) (runOk : Nat → Bool) (k : Nat)
    (hcur : s.current_exercise_ind < s.exercises.length)
    (hall : ∀ e ∈ s.exercises, e.done = true)
    (hwf : s.n_done = count_done s.exercises)
    (hlen : s.exercises.length < 65536)
    (hk : k < s.exercises.length)
    (hkfail : runOk k = false)
    (hkfirst : ∀ i, i < k → runOk i = true) :
    ∃ s' c, s.done_current_exercise runOk = .ok (s', .Pending, some c) ∧
      s'.write = .ok c ∧
      s'.current_exercise_ind = k ∧
      doneAt s'.exercises k = false ∧
      s'.n_done = s.n_done - 1 ∧
      ∀ i, i < k → doneAt s'.exercises i = true := by
  obtain ⟨e, he⟩ : ∃ e, s.exercises[s.current_exercise_ind]? = some e :=
    ⟨_, List.getElem?_eq_getElem hcur⟩
  have hmark : s.markCurrentDone = s :=
    markCurrentDone_of_done he (hall e (mem_of_getElem? he))
  have hnp : s.markCurrentDone.next_pending_exercise_ind = some none := by
    rw [hmark]; exact next_pending_none_of_all_done hcur hall
  obtain ⟨ek, hek⟩ : ∃ ek, s.exercises[k]? = some ek :=
    ⟨_, List.getElem?_eq_getElem hk⟩
  have hekd : ek.done = true := hall ek (mem_of_getElem? hek)
  have hfail := verify_loop_first_fail s runOk k hkfail s.exercises 0
    (by omega) (Nat.zero_le k) (fun i _ hi2 => hkfirst i hi2)
  set s' : AppState :=
    { current_exercise_ind := k,
      exercises := set_exercise_done s.exercises k false,
      n_done := (s.n_done + 65535) % 65536 } with hs'
  have hsk : s'.exercises[k]? = some { ek with done := false } :=
    set_exercise_done_getElem?_self hek false
  have hwr : s'.write =
      .ok (({ ek with done := false } : Exercise).name.data ++ ['\n', '\n'] ++
        doneLines s'.exercises) := by
    unfold AppState.write
    rw [show s'.current_exercise_ind = k from rfl, hsk]
  refine ⟨s', _, ?_, hwr, rfl, ?_, ?_, ?_⟩
  · rw [done_current_exercise_verify runOk he hnp, hmark, hfail]
    simp only [hwr, RunResult.map]
  · exact doneAt_eq_false_iff.2 ⟨_, hsk, rfl⟩
  · have h1 : 1 ≤ s.n_done := by
      rw [hwf]; exact count_done_pos_of_mem (mem_of_getElem? hek) hekd
    have h2 : s.n_done < 65536 := by
      rw [hwf]; exact Nat.lt_of_le_of_lt (count_done_le_length _) hlen
    exact u16_sub_one h1 h2
  · intro i hi
    have : s'.exercises[i]? = s.exercises[i]? :=
      set_exercise_done_getElem?_ne false (by omega)
    obtain ⟨ei, hei⟩ : ∃ ei, s.exercises[i]? = some ei :=
      ⟨_, List.getElem?_eq_getElem (by omega)⟩
    exact doneAt_eq_true_of_getElem? (this ▸ hei) (hall ei (mem_of_getElem? hei))

/-- Witness for C3: the spec's regression scenario — three exercises all
done, verification fails on index 2. -/
theorem C3_verification_regression_witness :
    ∃ s' c, demoRegress.done_current_exercise (fun i => i != 2) =
        .ok (s', .Pending, some c) ∧
      s'.write = .ok c ∧
      s'.current_exercise_ind = 2 ∧
      doneAt s'.exercises 2 = false ∧
      s'.n_done = demoRegress.n_done - 1 ∧
      ∀ i, i < 2 → doneAt s'.exercises i = true :=
  C3_verification_regression demoRegress (fun i => i != 2) 2 (by decide) (by decide)
    (by decide) (by decide) (by decide) (by decide) (by decide)

/-! ### Write, malformed files, and the two indexed setters -/

theorem splitOnNl_ne_nil : ∀ c : List Char, splitOnNl c ≠ [] := by
  intro c
  induction c with
  | nil => simp [splitOnNl]
  | cons a rest ih =>
    by_cases ha : a = '\n'
    · simp [splitOnNl, ha]
    · simp only [splitOnNl, if_neg ha]
      cases h : splitOnNl rest with
      | nil => simp
      | cons chunk chunks => simp

theorem write_ok {s : AppState} (h : s.current_exercise_ind < s.exercises.length) :
    ∃ e, s.exercises[s.current_exercise_ind]? = some e ∧
      s.write = .ok (e.name.data ++ ['\n', '\n'] ++ doneLines s.exercises) := by
  refine ⟨_, List.getElem?_eq_getElem h, ?_⟩
  unfold AppState.write
  rw [List.getElem?_eq_getElem h]

/-- C6: when the state file is absent or unreadable, or its content has
fewer than two newline-separated lines, construction leaves the machine at
its defaults: cursor 0, every flag pending (the registry exactly as built),
and `n_done = 0`. -/
theorem C6_malformed_file_defaults (info : List ExerciseInfo) (file : Option (List Char))
    (h : file = none ∨ ∃ c, file = some c ∧ (splitOnNl c).length < 2) :
    AppState.new info file =
      { current_exercise_ind := 0, exercises := info.map mkExercise, n_done := 0 } := by
  rcases h with rfl | ⟨c, rfl, hc⟩
  · rfl
  · unfold AppState.new AppState.update_from_file
    rcases hs : splitOnNl c with - | ⟨x, - | ⟨y, ys⟩⟩
    · exact absurd hs (splitOnNl_ne_nil c)
    · simp only [hs]
    · rw [hs] at hc; exact absurd hc (by simp only [List.length_cons]; omega)

/-- Witness for C6: a one-line (newline-free) state file leaves a one-element
registry at the defaults. -/
theorem C6_malformed_file_defaults_witness :
    AppState.new [⟨"A", "", "", ""⟩] (some ['A']) =
      { current_exercise_ind := 0,
        exercises := [mkExercise ⟨"A", "", "", ""⟩], n_done := 0 } :=
  C6_malformed_file_defaults [⟨"A", "", "", ""⟩] (some ['A'])
    (Or.inr ⟨['A'], rfl, by decide⟩)

/-- C7: `set_current_exercise_ind ind` fails with the index-out-of-range
error exactly when `ind ≥ len`, producing no new state (the caller keeps the
old one); for `ind < len` it succeeds, the new state differs from the old
only in the cursor, which reads back as `ind`, and the state is persisted. -/
theorem C7_set_current_index_bounds (s : AppState) (ind : Nat) :
    (s.set_current_exercise_ind ind = .err BAD_INDEX_ERR ↔ s.exercises.length ≤ ind) ∧
    (ind < s.exercises.length →
      ∃ c, s.set_current_exercise_ind ind =
        .ok ({ s with current_exercise_ind := ind }, c)) := by
  have hok : ind < s.exercises.length →
      ∃ c, s.set_current_exercise_ind ind =
        .ok ({ s with current_exercise_ind := ind }, c) := by
    intro h
    unfold AppState.set_current_exercise_ind
    rw [if_neg (by omega)]
    obtain ⟨e, -, hw⟩ :=
      write_ok (s := { s with current_exercise_ind := ind }) (by simpa using h)
    refine ⟨e.name.data ++ ['\n', '\n'] ++ doneLines s.exercises, ?_⟩
    simp only [hw, RunResult.map]
  refine ⟨⟨?_, ?_⟩, hok⟩
  · intro h
    by_contra hlt
    obtain ⟨c, hc⟩ := hok (by omega)
    rw [hc] at h
    exact RunResult.noConfusion h
  · intro h
    unfold AppState.set_current_exercise_ind
    rw [if_pos h]

/-- Witness for C7: setting index 1 on the four-exercise demo state moves
only the cursor. -/
theorem C7_set_current_index_bounds_witness :
    ∃ c, demoABCD.set_current_exercise_ind 1 =
      .ok ({ demoABCD with current_exercise_ind := 1 }, c) :=
  (C7_set_current_index_bounds demoABCD 1).2 (by decide)

/-- C8: `set_pending ind` fails when `ind` is out of range; on a done
exercise it flips the flag to pending, decrements `n_done` by exactly one
and persists; on an already pending exercise it returns the state unchanged
with no persistence.  The cursor-bound hypothesis reflects the program
invariant (the persist step indexes the current exercise), and the `n_done`
bounds follow from the `n_done`-counts-done invariant at any real state. -/
theorem C8_set_pending_flip_or_noop (s : AppState) (ind : Nat)
    (hcur : s.current_exercise_ind < s.exercises.length) :
    (s.exercises.length ≤ ind → s.set_pending ind = .err BAD_INDEX_ERR) ∧
    (∀ e, s.exercises[ind]? = some e → e.done = true →
      1 ≤ s.n_done → s.n_done < 65536 →
      ∃ c, s.set_pending ind =
        .ok ({ s with exercises := s.exercises.set ind { e with done := false },
                      n_done := s.n_done - 1 }, some c)) ∧
    (∀ e, s.exercises[ind]? = some e → e.done = false →
      s.set_pending ind = .ok (s, none)) := by
  refine ⟨?_, ?_, ?_⟩
  · intro h
    unfold AppState.set_pending
    rw [List.getElem?_eq_none h]
  · intro e he hd h1 h2
    unfold AppState.set_pending
    rw [he]
    simp only [hd, eq_self_iff_true, if_true, u16_sub_one h1 h2]
    obtain ⟨e', -, hw⟩ :=
      write_ok (s := { s with exercises := s.exercises.set ind { e with done := false },
                              n_done := s.n_done - 1 })
        (by simpa using hcur)
    refine ⟨e'.name.data ++ ['\n', '\n'] ++
      doneLines (s.exercises.set ind { e with done := false }), ?_⟩
    simp [hw, RunResult.map]
  · intro e he hd
    unfold AppState.set_pending
    rw [he]
    simp [hd]

/-- Witness for C8: flipping the done exercise `A` (index 0) of the demo
state to pending decrements `n_done` from 2 to 1 and persists. -/
theorem C8_set_pending_flip_or_noop_witness :
    ∃ c, demoABCD.set_pending 0 =
      .ok ({ demoABCD with
              exercises := demoABCD.exercises.set 0 ⟨"A", "", "", "", false⟩,
              n_done := demoABCD.n_done - 1 }, some c) :=
  (C8_set_pending_flip_or_noop demoABCD 0 (by decide)).2.1
    ⟨"A", "", "", "", true⟩ (by decide) (by decide) (by decide) (by decide)

/-! ### Helpers for the cursor invariant and panic-freedom -/

theorem RunResult.map_eq_ok {f : α → β} {x : RunResult α} {b : β}
    (h : RunResult.map f x = .ok b) : ∃ a, x = .ok a ∧ b = f a := by
  cases x with
  | halt => simp [RunResult.map] at h
  | err e => simp [RunResult.map] at h
  | ok a =>
    refine ⟨a, rfl, ?_⟩
    simp only [RunResult.map, RunResult.ok.injEq] at h
    exact h.symm

theorem set_current_ok {s : AppState} {ind : Nat} (h : ind < s.exercises.length) :
    ∃ c, s.set_current_exercise_ind ind =
      .ok ({ s with current_exercise_ind := ind }, c) := by
  unfold AppState.set_current_exercise_ind
  rw [if_neg (by omega)]
  obtain ⟨e, -, hw⟩ :=
    write_ok (s := { s with current_exercise_ind := ind }) (by simpa using h)
  refine ⟨e.name.data ++ ['\n', '\n'] ++ doneLines s.exercises, ?_⟩
  simp only [hw, RunResult.map]

theorem next_pending_some_lt {s : AppState} {j : Nat}
    (h : s.next_pending_exercise_ind = some (some j)) : j < s.exercises.length := by
  by_cases h0 : s.exercises.length = 0
  · unfold AppState.next_pending_exercise_ind at h
    rw [if_pos h0] at h
    simp at h
  · by_cases hlast : s.current_exercise_ind = s.exercises.length - 1
    · rw [next_pending_last h0 hlast] at h
      have hp := Option.some.inj h
      obtain ⟨hlt, -, -⟩ := position_spec hp
      rw [List.length_take] at hlt
      exact Nat.lt_of_lt_of_le hlt (min_le_right _ _)
    · by_cases hcur : s.current_exercise_ind < s.exercises.length
      · rw [next_pending_mid h0 hlast hcur] at h
        cases hd : position (fun e => !e.done)
            (s.exercises.drop (s.current_exercise_ind + 1)) with
        | some k =>
          rw [hd] at h
          simp only [Option.some.injEq] at h
          obtain ⟨hlt, -, -⟩ := position_spec hd
          rw [List.length_drop] at hlt
          omega
        | none =>
          rw [hd] at h
          simp only [Option.some.injEq] at h
          obtain ⟨hlt, -, -⟩ := position_spec h
          rw [List.length_take] at hlt
          exact Nat.lt_of_lt_of_le hlt (min_le_right _ _)
      · unfold AppState.next_pending_exercise_ind at h
        rw [if_neg h0, if_neg hlast] at h
        unfold slice_from at h
        rw [if_neg (by omega)] at h
        simp at h

theorem next_pending_ne_none {s : AppState}
    (hcur : s.current_exercise_ind < s.exercises.length) :
    ∃ v, s.next_pending_exercise_ind = some v := by
  have h0 : ¬s.exercises.length = 0 := by omega
  by_cases hlast : s.current_exercise_ind = s.exercises.length - 1
  · rw [next_pending_last h0 hlast]
    exact ⟨_, rfl⟩
  · rw [next_pending_mid h0 hlast hcur]
    exact ⟨_, rfl⟩

theorem update_loop_length (cn : List Char) (ds : List (List Char)) :
    ∀ (l : List Exercise) (ind n c : Nat),
      (update_loop cn ds l ind n c).1.length = l.length := by
  intro l
  induction l with
  | nil => intro ind n c; rfl
  | cons e es ih =>
    intro ind n c
    simp only [update_loop, List.length_cons]
    rw [ih]

theorem update_loop_cur (cn : List Char) (ds : List (List Char)) :
    ∀ (l : List Exercise) (ind n c : Nat),
      (update_loop cn ds l ind n c).2.2 = c ∨
      ∃ i, i < l.length ∧ (update_loop cn ds l ind n c).2.2 = ind + i := by
  intro l
  induction l with
  | nil => intro ind n c; exact Or.inl rfl
  | cons e es ih =>
    intro ind n c
    have hstep : (update_loop cn ds (e :: es) ind n c).2.2 =
        (update_loop cn ds es (ind + 1)
          (if decide (e.name.data ∈ ds) = true then (n + 1) % 65536 else n)
          (if e.name.data = cn then ind else c)).2.2 := rfl
    rw [hstep]
    rcases ih (ind + 1) (if decide (e.name.data ∈ ds) = true then (n + 1) % 65536 else n)
        (if e.name.data = cn then ind else c) with h | ⟨i, hi, h⟩
    · by_cases hm : e.name.data = cn
      · exact Or.inr ⟨0, by simp, by simpa [hm] using h⟩
      · exact Or.inl (by simpa [hm] using h)
    · refine Or.inr ⟨i + 1, by simp only [List.length_cons]; omega, ?_⟩
      rw [h]
      omega

theorem update_from_file_cursor {s : AppState} (file : Option (List Char))
    (h0 : s.current_exercise_ind < s.exercises.length) :
    (s.update_from_file file).current_exercise_ind <
      (s.update_from_file file).exercises.length ∧
    (s.update_from_file file).exercises.length = s.exercises.length := by
  unfold AppState.update_from_file
  cases file with
  | none => exact ⟨h0, rfl⟩
  | some content =>
    rcases hs : splitOnNl content with - | ⟨x, - | ⟨y, ys⟩⟩
    · exact absurd hs (splitOnNl_ne_nil content)
    · simp only [hs]
      exact ⟨h0, trivial⟩
    · simp only [hs]
      rcases hu : update_loop x (collect_done ys) s.exercises 0 0
          s.current_exercise_ind with ⟨ex', n', cu'⟩
      have hlen := update_loop_length x (collect_done ys) s.exercises 0 0
        s.current_exercise_ind
      have hcu := update_loop_cur x (collect_done ys) s.exercises 0 0
        s.current_exercise_ind
      rw [hu] at hlen hcu
      simp only at hlen hcu
      refine ⟨?_, hlen⟩
      rcases hcu with h | ⟨i, hi, h⟩
      · simp only [h, hlen]
        exact h0
      · simp only [h, hlen]
        omega

theorem verify_loop_ok_cursor (s : AppState) (runOk : Nat → Bool) :
    ∀ (l : List Exercise) (ind : Nat)
      (r : AppState × ExercisesProgress × Option (List Char)),
      s.current_exercise_ind < s.exercises.length →
      ind + l.length ≤ s.exercises.length →
      verify_loop s runOk l ind = .ok r →
      r.1.current_exercise_ind < r.1.exercises.length := by
  intro l
  induction l with
  | nil =>
    intro ind r hcur hb h
    simp only [verify_loop, RunResult.ok.injEq] at h
    rw [← h]
    exact hcur
  | cons e es ih =>
    intro ind r hcur hb h
    simp only [verify_loop] at h
    by_cases hr : runOk ind
    · rw [if_pos hr] at h
      exact ih (ind + 1) r hcur (by simp only [List.length_cons] at hb; omega) h
    · rw [if_neg hr] at h
      obtain ⟨c, -, hrc⟩ := RunResult.map_eq_ok h
      rw [hrc]
      simp only [set_exercise_done_length]
      simp only [List.length_cons] at hb
      omega

theorem verify_loop_produces_ok (s : AppState) (runOk : Nat → Bool) :
    ∀ (l : List Exercise) (ind : Nat),
      ind + l.length ≤ s.exercises.length →
      ∃ r, verify_loop s runOk l ind = .ok r := by
  intro l
  induction l with
  | nil => intro ind hb; exact ⟨_, rfl⟩
  | cons e es ih =>
    intro ind hb
    simp only [verify_loop]
    by_cases hr : runOk ind
    · rw [if_pos hr]
      exact ih (ind + 1) (by simp only [List.length_cons] at hb; omega)
    · rw [if_neg hr]
      have hind : ind < s.exercises.length := by
        simp only [List.length_cons] at hb; omega
      obtain ⟨e', -, hw⟩ :=
        write_ok (s := { s with
          current_exercise_ind := ind,
          exercises := set_exercise_done s.exercises ind false,
          n_done := (s.n_done + 65535) % 65536 })
          (by simpa [set_exercise_done_length] using hind)
      refine ⟨({ s with
          current_exercise_ind := ind,
          exercises := set_exercise_done s.exercises ind false,
          n_done := (s.n_done + 65535) % 65536 }, .Pending,
        some (e'.name.data ++ ['\n', '\n'] ++
          doneLines (set_exercise_done s.exercises ind false))), ?_⟩
      simp [hw, RunResult.map]

/-- C9: the cursor stays strictly below the registry length: it holds after
construction over a non-empty registry, is preserved by every successful
operation, and the next-pending selection only produces in-range indices. -/
theorem C9_cursor_invariant :
    (∀ (info : List ExerciseInfo) (file : Option (List Char)), info ≠ [] →
      (AppState.new info file).current_exercise_ind <
        (AppState.new info file).exercises.length) ∧
    (∀ (s : AppState) (ind : Nat) (r : AppState × List Char),
      s.set_current_exercise_ind ind = .ok r →
      r.1.current_exercise_ind < r.1.exercises.length) ∧
    (∀ (s : AppState) (nm : String) (r : AppState × List Char),
      s.set_current_exercise_by_name nm = .ok r →
      r.1.current_exercise_ind < r.1.exercises.length) ∧
    (∀ (s : AppState) (ind : Nat) (r : AppState × Option (List Char)),
      s.current_exercise_ind < s.exercises.length →
      s.set_pending ind = .ok r →
      r.1.current_exercise_ind < r.1.exercises.length) ∧
    (∀ (s : AppState) (j : Nat),
      s.next_pending_exercise_ind = some (some j) → j < s.exercises.length) ∧
    (∀ (s : AppState) (runOk : Nat → Bool)
      (r : AppState × ExercisesProgress × Option (List Char)),
      s.current_exercise_ind < s.exercises.length →
      s.done_current_exercise runOk = .ok r →
      r.1.current_exercise_ind < r.1.exercises.length) := by
  have hset : ∀ (s : AppState) (ind : Nat) (r : AppState × List Char),
      s.set_current_exercise_ind ind = .ok r →
      r.1.current_exercise_ind < r.1.exercises.length := by
    intro s ind r h
    unfold AppState.set_current_exercise_ind at h
    by_cases hle : s.exercises.length ≤ ind
    · rw [if_pos hle] at h
      exact absurd h (by simp)
    · rw [if_neg hle] at h
      obtain ⟨c, -, hrc⟩ := RunResult.map_eq_ok h
      rw [hrc]
      simpa using by omega
  refine ⟨?_, hset, ?_, ?_, fun s j h => next_pending_some_lt h, ?_⟩
  · intro info file hne
    have h0 : (0 : Nat) < (List.map mkExercise info).length := by
      rw [List.length_map]
      cases info with
      | nil => exact absurd rfl hne
      | cons a as => simp
    exact (update_from_file_cursor
      (s := { current_exercise_ind := 0, exercises := info.map mkExercise, n_done := 0 })
      file h0).1
  · intro s nm r h
    unfold AppState.set_current_exercise_by_name at h
    cases hp : position (fun e => e.name == nm) s.exercises with
    | none =>
      rw [hp] at h
      exact absurd h (by simp)
    | some ind =>
      rw [hp] at h
      obtain ⟨hlt, -, -⟩ := position_spec hp
      obtain ⟨c, -, hrc⟩ := RunResult.map_eq_ok h
      rw [hrc]
      simpa using hlt
  · intro s ind r hcur h
    unfold AppState.set_pending at h
    cases he : s.exercises[ind]? with
    | none =>
      rw [he] at h
      exact absurd h (by simp)
    | some e =>
      simp only [he] at h
      by_cases hd : e.done
      · rw [if_pos hd] at h
        obtain ⟨c, -, hrc⟩ := RunResult.map_eq_ok h
        rw [hrc]
        simpa [List.length_set] using hcur
      · rw [if_neg hd] at h
        simp only [RunResult.ok.injEq] at h
        rw [← h]
        exact hcur
  · intro s runOk r hcur h
    unfold AppState.done_current_exercise at h
    rw [List.getElem?_eq_getElem hcur] at h
    simp only at h
    have hcur1 : s.markCurrentDone.current_exercise_ind <
        s.markCurrentDone.exercises.length := by
      rw [markCurrentDone_current_exercise_ind, markCurrentDone_length]
      exact hcur
    obtain ⟨v, hv⟩ := next_pending_ne_none hcur1
    rw [hv] at h
    cases v with
    | some ind =>
      simp only at h
      obtain ⟨sc, hsc, hrc⟩ := RunResult.map_eq_ok h
      rw [hrc]
      exact hset _ _ _ hsc
    | none =>
      simp only at h
      exact verify_loop_ok_cursor s.markCurrentDone runOk s.markCurrentDone.exercises 0 r
        hcur1 (by omega) h

/-- Witness for C9: construction over a singleton registry, and the in-range
bound of the next-pending selection on the demo state. -/
theorem C9_cursor_invariant_witness :
    ((AppState.new [⟨"A", "", "", ""⟩] none).current_exercise_ind <
      (AppState.new [⟨"A", "", "", ""⟩] none).exercises.length) ∧
    3 < demoABCD.exercises.length :=
  ⟨C9_cursor_invariant.1 [⟨"A", "", "", ""⟩] none (by decide),
   C9_cursor_invariant.2.2.2.2.1 demoABCD 3 (by decide)⟩

/-- C10: with a non-empty registry (and the cursor invariant of any reachable
state), reading the current exercise, persisting, and the whole
mark-done-and-advance operation are panic-free; with an empty registry, the
current-exercise indexing and the next-pending computation both panic. -/
theorem C10_nonempty_precondition :
    (∀ s : AppState, s.exercises ≠ [] →
      s.current_exercise_ind < s.exercises.length →
      (∃ e, s.exercises[s.current_exercise_ind]? = some e) ∧
      (∃ c, s.write = .ok c) ∧
      (∀ runOk : Nat → Bool, ∃ r, s.done_current_exercise runOk = .ok r)) ∧
    (∀ s : AppState, s.exercises = [] →
      s.exercises[s.current_exercise_ind]? = none ∧
      s.next_pending_exercise_ind = none) := by
  constructor
  · intro s hne hcur
    obtain ⟨e, he, hw⟩ := write_ok hcur
    refine ⟨⟨e, he⟩, ⟨_, hw⟩, ?_⟩
    intro runOk
    unfold AppState.done_current_exercise
    rw [he]
    simp only
    have hcur1 : s.markCurrentDone.current_exercise_ind <
        s.markCurrentDone.exercises.length := by
      rw [markCurrentDone_current_exercise_ind, markCurrentDone_length]
      exact hcur
    obtain ⟨v, hv⟩ := next_pending_ne_none hcur1
    rw [hv]
    cases v with
    | some ind =>
      simp only
      obtain ⟨c, hc⟩ := set_current_ok (next_pending_some_lt hv)
      rw [hc]
      exact ⟨_, rfl⟩
    | none =>
      simp only
      exact verify_loop_produces_ok s.markCurrentDone runOk s.markCurrentDone.exercises 0
        (by omega)
  · intro s hne
    constructor
    · rw [hne]
      simp
    · unfold AppState.next_pending_exercise_ind
      rw [if_pos (by rw [hne]; rfl)]

/-- Witness for C10: the four-exercise demo state is panic-free, and the
empty-registry state panics in both places. -/
theorem C10_nonempty_precondition_witness :
    ((∃ e, demoABCD.exercises[demoABCD.current_exercise_ind]? = some e) ∧
     (∃ c, demoABCD.write = .ok c) ∧
     (∀ runOk : Nat → Bool, ∃ r, demoABCD.done_current_exercise runOk = .ok r)) ∧
    ((⟨0, [], 0⟩ : AppState).exercises[(⟨0, [], 0⟩ : AppState).current_exercise_ind]? = none ∧
     (⟨0, [], 0⟩ : AppState).next_pending_exercise_ind = none) :=
  ⟨C10_nonempty_precondition.1 demoABCD (by decide) (by decide),
   C10_nonempty_precondition.2 ⟨0, [], 0⟩ rfl⟩

/-! ### Counting lemmas for the `n_done` invariant -/

theorem count_done_cons (e : Exercise) (es : List Exercise) :
    count_done (e :: es) = (if e.done = true then 1 else 0) + count_done es := rfl

theorem count_done_eq_zero {l : List Exercise} (h : ∀ e ∈ l, e.done = false) :
    count_done l = 0 := by
  induction l with
  | nil => rfl
  | cons e es ih =>
    simp only [count_done, h e (List.mem_cons_self e es)]
    simpa using ih fun e' he' => h e' (List.mem_cons_of_mem _ he')

theorem count_done_replicate (n : Nat) {e : Exercise} (h : e.done = true) :
    count_done (List.replicate n e) = n := by
  induction n with
  | zero => rfl
  | succ n ih => simp [List.replicate_succ, count_done, h, ih]; omega

theorem count_done_set_false :
    ∀ {l : List Exercise} {i : Nat} {e : Exercise},
      l[i]? = some e → e.done = true →
      count_done (l.set i { e with done := false }) = count_done l - 1 := by
  intro l
  induction l with
  | nil => intro i e h; simp at h
  | cons a as ih =>
    intro i e h hd
    match i with
    | 0 =>
      simp only [List.getElem?_cons_zero, Option.some.injEq] at h
      subst h
      simp [List.set_cons_zero, count_done, hd]
    | i + 1 =>
      simp only [List.getElem?_cons_succ] at h
      have hrec := ih h hd
      have hpos := count_done_pos_of_mem (mem_of_getElem? h) hd
      simp only [List.set_cons_succ, count_done, hrec]
      by_cases ha : a.done <;> simp [ha] <;> omega

theorem count_done_set_true :
    ∀ {l : List Exercise} {i : Nat} {e : Exercise},
      l[i]? = some e → e.done = false →
      count_done (l.set i { e with done := true }) = count_done l + 1 := by
  intro l
  induction l with
  | nil => intro i e h; simp at h
  | cons a as ih =>
    intro i e h hd
    match i with
    | 0 =>
      simp only [List.getElem?_cons_zero, Option.some.injEq] at h
      subst h
      simp [List.set_cons_zero, count_done, hd]
      omega
    | i + 1 =>
      simp only [List.getElem?_cons_succ] at h
      have hrec := ih h hd
      simp only [List.set_cons_succ, count_done, hrec]
      by_cases ha : a.done <;> simp [ha] <;> omega

theorem count_done_lt_of_pending :
    ∀ {l : List Exercise} {i : Nat} {e : Exercise},
      l[i]? = some e → e.done = false → count_done l < l.length := by
  intro l
  induction l with
  | nil => intro i e h; simp at h
  | cons a as ih =>
    intro i e h hd
    match i with
    | 0 =>
      simp only [List.getElem?_cons_zero, Option.some.injEq] at h
      subst h
      have := count_done_le_length as
      simp only [count_done, List.length_cons, hd, if_false]
      simp only [Bool.false_eq_true, if_false]
      omega
    | i + 1 =>
      simp only [List.getElem?_cons_succ] at h
      have := ih h hd
      simp only [count_done, List.length_cons]
      by_cases ha : a.done <;> simp [ha] <;> omega

theorem count_match_le_length (ds : List (List Char)) :
    ∀ l : List Exercise, count_match ds l ≤ l.length := by
  intro l
  induction l with
  | nil => exact Nat.le_refl 0
  | cons e es ih =>
    simp only [count_match, List.length_cons]
    by_cases hm : e.name.data ∈ ds <;> simp [hm] <;> omega

theorem update_loop_n_done (cn : List Char) (ds : List (List Char)) :
    ∀ (l : List Exercise) (ind n c : Nat), n < 65536 →
      (update_loop cn ds l ind n c).2.1 = (n + count_match ds l) % 65536 := by
  intro l
  induction l with
  | nil =>
    intro ind n c hn
    show n = (n + count_match ds []) % 65536
    rw [show count_match ds [] = 0 from rfl, Nat.add_zero, Nat.mod_eq_of_lt hn]
  | cons e es ih =>
    intro ind n c hn
    have hstep : (update_loop cn ds (e :: es) ind n c).2.1 =
        (update_loop cn ds es (ind + 1)
          (if decide (e.name.data ∈ ds) = true then (n + 1) % 65536 else n)
          (if e.name.data = cn then ind else c)).2.1 := rfl
    rw [hstep]
    by_cases hm : e.name.data ∈ ds
    · rw [if_pos (by simpa using hm),
        ih (ind + 1) ((n + 1) % 65536) (if e.name.data = cn then ind else c)
          (Nat.mod_lt _ (by omega)),
        Nat.mod_add_mod]
      have : count_match ds (e :: es) = 1 + count_match ds es := by
        simp [count_match, hm]
      rw [this]
      ring_nf
    · rw [if_neg (by simpa using hm),
        ih (ind + 1) n (if e.name.data = cn then ind else c) hn]
      have : count_match ds (e :: es) = count_match ds es := by
        simp [count_match, hm]
      rw [this]

theorem update_loop_exercises (cn : List Char) (ds : List (List Char)) :
    ∀ (l : List Exercise) (ind n c : Nat),
      (update_loop cn ds l ind n c).1 =
        l.map fun e =>
          if decide (e.name.data ∈ ds) = true then { e with done := true } else e := by
  intro l
  induction l with
  | nil => intro ind n c; rfl
  | cons e es ih =>
    intro ind n c
    have hstep : (update_loop cn ds (e :: es) ind n c).1 =
        (if decide (e.name.data ∈ ds) = true then { e with done := true } else e) ::
          (update_loop cn ds es (ind + 1)
            (if decide (e.name.data ∈ ds) = true then (n + 1) % 65536 else n)
            (if e.name.data = cn then ind else c)).1 := rfl
    rw [hstep, ih]
    simp [List.map_cons]

theorem count_done_update_of_all_pending (ds : List (List Char)) :
    ∀ l : List Exercise, (∀ e ∈ l, e.done = false) →
      count_done (l.map fun e =>
        if decide (e.name.data ∈ ds) = true then { e with done := true } else e) =
      count_match ds l := by
  intro l
  induction l with
  | nil => intro _; rfl
  | cons e es ih =>
    intro h
    have hd := h e (List.mem_cons_self e es)
    have ihe := ih fun e' he' => h e' (List.mem_cons_of_mem _ he')
    simp only [decide_eq_true_eq] at ihe
    by_cases hm : e.name.data ∈ ds
    · simp [count_done, count_match, hm, ihe]
    · simp [count_done, count_match, hm, hd, ihe]

theorem update_from_file_n_done {s : AppState} (file : Option (List Char))
    (hbase : ∀ e ∈ s.exercises, e.done = false)
    (hlen : s.exercises.length < 65536) :
    (s.update_from_file file).n_done =
      count_done (s.update_from_file file).exercises := by
  unfold AppState.update_from_file
  cases file with
  | none => exact (count_done_eq_zero hbase).symm
  | some content =>
    rcases hs : splitOnNl content with - | ⟨x, - | ⟨y, ys⟩⟩
    · exact absurd hs (splitOnNl_ne_nil content)
    · simp only [hs]
      exact (count_done_eq_zero hbase).symm
    · simp only [hs]
      rcases hu : update_loop x (collect_done ys) s.exercises 0 0 s.current_exercise_ind
        with ⟨ex', n', cu'⟩
      have h1 := update_loop_n_done x (collect_done ys) s.exercises 0 0
        s.current_exercise_ind (by omega)
      have h2 := update_loop_exercises x (collect_done ys) s.exercises 0 0
        s.current_exercise_ind
      rw [hu] at h1 h2
      simp only at h1 h2
      show n' = count_done ex'
      rw [h1, h2, count_done_update_of_all_pending _ _ hbase, Nat.zero_add,
        Nat.mod_eq_of_lt (Nat.lt_of_le_of_lt (count_match_le_length _ _) hlen)]

theorem set_current_ok_inv {s : AppState} {ind : Nat} {r : AppState × List Char}
    (h : s.set_current_exercise_ind ind = .ok r) :
    r.1.exercises = s.exercises ∧ r.1.n_done = s.n_done := by
  unfold AppState.set_current_exercise_ind at h
  by_cases hle : s.exercises.length ≤ ind
  · rw [if_pos hle] at h
    exact absurd h (by simp)
  · rw [if_neg hle] at h
    obtain ⟨c, -, hrc⟩ := RunResult.map_eq_ok h
    rw [hrc]
    exact ⟨rfl, rfl⟩

theorem set_exercise_done_eq {l : List Exercise} {i : Nat} {e : Exercise}
    (h : l[i]? = some e) (d : Bool) :
    set_exercise_done l i d = l.set i { e with done := d } := by
  unfold set_exercise_done
  rw [h]

theorem markCurrentDone_n_done_inv {s : AppState}
    (hinv : s.n_done = count_done s.exercises)
    (hlen : s.exercises.length < 65536) :
    s.markCurrentDone.n_done = count_done s.markCurrentDone.exercises := by
  unfold AppState.markCurrentDone
  cases he : s.exercises[s.current_exercise_ind]? with
  | none => exact hinv
  | some e =>
    by_cases hd : e.done
    · simp only [if_pos hd]
      exact hinv
    · simp only [if_neg hd]
      show (s.n_done + 1) % 65536 =
        count_done (s.exercises.set s.current_exercise_ind { e with done := true })
      rw [count_done_set_true he (by simpa using hd)]
      have hlt := count_done_lt_of_pending he (by simpa using hd)
      rw [hinv]
      exact Nat.mod_eq_of_lt (by omega)

theorem all_done_of_next_pending_none {s : AppState}
    (hcur : s.current_exercise_ind < s.exercises.length)
    (h : s.next_pending_exercise_ind = some none) :
    ∀ i, i < s.exercises.length → ¬i = s.current_exercise_ind →
      doneAt s.exercises i = true := by
  intro i hi hne
  have h0 : ¬s.exercises.length = 0 := by omega
  obtain ⟨e, he⟩ : ∃ e, s.exercises[i]? = some e := ⟨_, List.getElem?_eq_getElem hi⟩
  by_cases hlast : s.current_exercise_ind = s.exercises.length - 1
  · rw [next_pending_last h0 hlast] at h
    have hp := Option.some.inj h
    have hic : i < s.current_exercise_ind := by omega
    have ht : (s.exercises.take s.current_exercise_ind)[i]? = some e := by
      rw [List.getElem?_take, if_pos hic]; exact he
    have := position_eq_none hp e (mem_of_getElem? ht)
    exact doneAt_eq_true_of_getElem? he (by simpa using this)
  · by_cases hcl : s.current_exercise_ind < s.exercises.length
    · rw [next_pending_mid h0 hlast hcl] at h
      cases hd : position (fun e => !e.done)
          (s.exercises.drop (s.current_exercise_ind + 1)) with
      | some k =>
        rw [hd] at h
        exact absurd
          (Option.some.inj h : some (s.current_exercise_ind + 1 + k) = none) (by simp)
      | none =>
        rw [hd] at h
        have hp : position (fun e => !e.done)
            (s.exercises.take s.current_exercise_ind) = none := Option.some.inj h
        rcases Nat.lt_or_ge i s.current_exercise_ind with hic | hic
        · have ht : (s.exercises.take s.current_exercise_ind)[i]? = some e := by
            rw [List.getElem?_take, if_pos hic]; exact he
          have := position_eq_none hp e (mem_of_getElem? ht)
          exact doneAt_eq_true_of_getElem? he (by simpa using this)
        · have hidx : s.current_exercise_ind + 1 +
              (i - (s.current_exercise_ind + 1)) = i := by omega
          have hdr : (s.exercises.drop (s.current_exercise_ind + 1))[i -
              (s.current_exercise_ind + 1)]? = some e := by
            rw [List.getElem?_drop, hidx]; exact he
          have := position_eq_none hd e (mem_of_getElem? hdr)
          exact doneAt_eq_true_of_getElem? he (by simpa using this)
    · exact absurd hcur hcl

theorem verify_loop_ok_n_done (s : AppState) (runOk : Nat → Bool)
    (hinv : s.n_done = count_done s.exercises)
    (hall : ∀ e ∈ s.exercises, e.done = true)
    (hlen : s.exercises.length < 65536) :
    ∀ (l : List Exercise) (ind : Nat)
      (r : AppState × ExercisesProgress × Option (List Char)),
      ind + l.length ≤ s.exercises.length →
      verify_loop s runOk l ind = .ok r →
      r.1.n_done = count_done r.1.exercises := by
  intro l
  induction l with
  | nil =>
    intro ind r hb h
    simp only [verify_loop, RunResult.ok.injEq] at h
    rw [← h]
    exact hinv
  | cons e es ih =>
    intro ind r hb h
    simp only [verify_loop] at h
    by_cases hr : runOk ind
    · rw [if_pos hr] at h
      exact ih (ind + 1) r (by simp only [List.length_cons] at hb; omega) h
    · rw [if_neg hr] at h
      obtain ⟨c, -, hrc⟩ := RunResult.map_eq_ok h
      rw [hrc]
      have hind : ind < s.exercises.length := by
        simp only [List.length_cons] at hb; omega
      obtain ⟨ei, hei⟩ : ∃ ei, s.exercises[ind]? = some ei :=
        ⟨_, List.getElem?_eq_getElem hind⟩
      have heid : ei.done = true := hall ei (mem_of_getElem? hei)
      show (s.n_done + 65535) % 65536 =
        count_done (set_exercise_done s.exercises ind false)
      rw [set_exercise_done_eq hei false, count_done_set_false hei heid]
      have h1 : 1 ≤ s.n_done := by
        rw [hinv]; exact count_done_pos_of_mem (mem_of_getElem? hei) heid
      have h2 : s.n_done < 65536 := by
        rw [hinv]; exact Nat.lt_of_le_of_lt (count_done_le_length _) hlen
      rw [u16_sub_one h1 h2, hinv]

/-- C4 (amended): the `n_done` counter equals the number of done exercises
after construction and after every successful public operation, for
registries with fewer than 2^16 exercises (`n_done` is a 16-bit counter and
wraps on larger registries, see the counterexample). -/
theorem C4_n_done_counts_done_bounded :
    (∀ (info : List ExerciseInfo) (file : Option (List Char)),
      info.length < 65536 →
      (AppState.new info file).n_done = count_done (AppState.new info file).exercises) ∧
    (∀ (s : AppState) (ind : Nat) (r : AppState × List Char),
      s.n_done = count_done s.exercises →
      s.set_current_exercise_ind ind = .ok r →
      r.1.n_done = count_done r.1.exercises) ∧
    (∀ (s : AppState) (nm : String) (r : AppState × List Char),
      s.n_done = count_done s.exercises →
      s.set_current_exercise_by_name nm = .ok r →
      r.1.n_done = count_done r.1.exercises) ∧
    (∀ (s : AppState) (ind : Nat) (r : AppState × Option (List Char)),
      s.n_done = count_done s.exercises →
      s.exercises.length < 65536 →
      s.set_pending ind = .ok r →
      r.1.n_done = count_done r.1.exercises) ∧
    (∀ (s : AppState) (runOk : Nat → Bool)
      (r : AppState × ExercisesProgress × Option (List Char)),
      s.n_done = count_done s.exercises →
      s.exercises.length < 65536 →
      s.current_exercise_ind < s.exercises.length →
      s.done_current_exercise runOk = .ok r →
      r.1.n_done = count_done r.1.exercises) := by
  refine ⟨?_, ?_, ?_, ?_, ?_⟩
  · intro info file hlen
    have hbase : ∀ e ∈ List.map mkExercise info, e.done = false := by
      intro e he
      obtain ⟨a, -, rfl⟩ := List.mem_map.1 he
      rfl
    exact update_from_file_n_done
      (s := { current_exercise_ind := 0, exercises := info.map mkExercise, n_done := 0 })
      file hbase (by simpa using hlen)
  · intro s ind r hinv h
    obtain ⟨hex, hnd⟩ := set_current_ok_inv h
    rw [hnd, hex]
    exact hinv
  · intro s nm r hinv h
    unfold AppState.set_current_exercise_by_name at h
    cases hp : position (fun e => e.name == nm) s.exercises with
    | none =>
      rw [hp] at h
      exact absurd h (by simp)
    | some ind =>
      rw [hp] at h
      obtain ⟨c, -, hrc⟩ := RunResult.map_eq_ok h
      rw [hrc]
      exact hinv
  · intro s ind r hinv hlen h
    unfold AppState.set_pending at h
    cases he : s.exercises[ind]? with
    | none =>
      simp only [he] at h
      exact absurd h (by simp)
    | some e =>
      simp only [he] at h
      by_cases hd : e.done
      · rw [if_pos hd] at h
        obtain ⟨c, -, hrc⟩ := RunResult.map_eq_ok h
        rw [hrc]
        show (s.n_done + 65535) % 65536 =
          count_done (s.exercises.set ind { e with done := false })
        rw [count_done_set_false he hd]
        have h1 : 1 ≤ s.n_done := by
          rw [hinv]; exact count_done_pos_of_mem (mem_of_getElem? he) hd
        have h2 : s.n_done < 65536 := by
          rw [hinv]; exact Nat.lt_of_le_of_lt (count_done_le_length _) hlen
        rw [u16_sub_one h1 h2, hinv]
      · rw [if_neg hd] at h
        simp only [RunResult.ok.injEq] at h
        rw [← h]
        exact hinv
  · intro s runOk r hinv hlen hcur h
    unfold AppState.done_current_exercise at h
    rw [List.getElem?_eq_getElem hcur] at h
    simp only at h
    have hcur1 : s.markCurrentDone.current_exercise_ind <
        s.markCurrentDone.exercises.length := by
      rw [markCurrentDone_current_exercise_ind, markCurrentDone_length]
      exact hcur
    have hinv1 : s.markCurrentDone.n_done = count_done s.markCurrentDone.exercises :=
      markCurrentDone_n_done_inv hinv hlen
    have hlen1 : s.markCurrentDone.exercises.length < 65536 := by
      rw [markCurrentDone_length]
      exact hlen
    obtain ⟨v, hv⟩ := next_pending_ne_none hcur1
    rw [hv] at h
    cases v with
    | some ind =>
      simp only at h
      obtain ⟨sc, hsc, hrc⟩ := RunResult.map_eq_ok h
      obtain ⟨hex, hnd⟩ := set_current_ok_inv hsc
      rw [hrc]
      show sc.1.n_done = count_done sc.1.exercises
      rw [hnd, hex]
      exact hinv1
    | none =>
      simp only at h
      have hall1 : ∀ e ∈ s.markCurrentDone.exercises, e.done = true := by
        apply all_done_of_forall_doneAt
        intro i hi
        by_cases hic : i = s.markCurrentDone.current_exercise_ind
        · rw [hic, markCurrentDone_current_exercise_ind]
          exact markCurrentDone_doneAt_self hcur
        · exact all_done_of_next_pending_none hcur1 hv i hi hic
      exact verify_loop_ok_n_done s.markCurrentDone runOk hinv1 hall1 hlen1
        s.markCurrentDone.exercises 0 r (by omega) h

/-- Witness for the amended C4: construction over a one-exercise registry,
and completing the current exercise of the all-done demo state. -/
theorem C4_n_done_counts_done_bounded_witness :
    ((AppState.new [⟨"A", "", "", ""⟩] none).n_done =
      count_done (AppState.new [⟨"A", "", "", ""⟩] none).exercises) ∧
    demoAllDone.markCurrentDone.n_done =
      count_done demoAllDone.markCurrentDone.exercises :=
  ⟨C4_n_done_counts_done_bounded.1 [⟨"A", "", "", ""⟩] none (by decide),
   C4_n_done_counts_done_bounded.2.2.2.2 demoAllDone (fun _ => true)
     (demoAllDone.markCurrentDone, .AllDone, none)
     (by decide) (by decide) (by decide) (by decide)⟩

theorem markCurrentDone_exercises_of_pending {s : AppState} {e : Exercise}
    (h : s.exercises[s.current_exercise_ind]? = some e) (hd : e.done = false) :
    s.markCurrentDone.exercises =
      s.exercises.set s.current_exercise_ind { e with done := true } := by
  unfold AppState.markCurrentDone
  rw [h]
  simp [hd]

theorem doneAt_set_done_all {l : List Exercise} {cur : Nat} {b : Exercise}
    (hb : b.done = true)
    (hall : ∀ j, ¬j = cur → doneAt l j = true) (hcur : cur < l.length) :
    ∀ i, doneAt (l.set cur b) i = true := by
  intro i
  by_cases hic : cur = i
  · subst hic
    unfold doneAt
    rw [List.getElem?_set_self hcur]
    exact hb
  · unfold doneAt
    rw [List.getElem?_set_ne hic]
    have h := hall i fun h => hic h.symm
    unfold doneAt at h
    exact h

theorem overflowState_exercises :
    overflowState.exercises =
      ⟨"p", "", "", "", false⟩ :: List.replicate 65535 doneEx := rfl

theorem overflowState_getElem :
    overflowState.exercises[overflowState.current_exercise_ind]? =
      some ⟨"p", "", "", "", false⟩ := by
  rw [show overflowState.current_exercise_ind = 0 from rfl, overflowState_exercises,
    List.getElem?_cons_zero]

theorem overflowState_length : overflowState.exercises.length = 65536 := by
  rw [overflowState_exercises, List.length_cons, List.length_replicate]

theorem replicate_doneEx_getElem (n : Nat) :
    ∀ k : Nat, (List.replicate n doneEx)[k]? = none ∨
      (List.replicate n doneEx)[k]? = some doneEx := by
  induction n with
  | zero => intro k; exact Or.inl rfl
  | succ m ih =>
    intro k
    rw [List.replicate_succ]
    cases k with
    | zero => exact Or.inr List.getElem?_cons_zero
    | succ k =>
      rw [List.getElem?_cons_succ]
      exact ih k

theorem doneAt_replicate_doneEx (n k : Nat) :
    doneAt (List.replicate n doneEx) k = true := by
  unfold doneAt
  rcases replicate_doneEx_getElem n k with h | h
  · rw [h]
  · rw [h]
    rfl

theorem doneAt_cons_succ (a : Exercise) (l : List Exercise) (k : Nat) :
    doneAt (a :: l) (k + 1) = doneAt l k := by
  unfold doneAt
  rw [List.getElem?_cons_succ]

theorem overflowState_tail_done :
    ∀ j, ¬j = overflowState.current_exercise_ind →
      doneAt overflowState.exercises j = true := by
  intro j hj
  have hj0 : ¬j = 0 := fun h => hj (h.trans rfl)
  cases j with
  | zero => exact absurd rfl hj0
  | succ k =>
    rw [overflowState_exercises, doneAt_cons_succ]
    exact doneAt_replicate_doneEx 65535 k

/-- Counterexample to C4 as stated: `overflowState` has 65536 exercises and
satisfies the invariant (`n_done = 65535` equals the number of done
exercises), but completing its current exercise wraps the 16-bit counter:
the resulting state has every one of its 65536 exercises done while
`n_done` reads 0. -/
theorem C4_n_done_counts_done_counterexample :
    overflowState.n_done = count_done overflowState.exercises ∧
    overflowState.current_exercise_ind < overflowState.exercises.length ∧
    ∃ r, overflowState.done_current_exercise (fun _ => true) = .ok r ∧
      r.1.n_done = 0 ∧ count_done r.1.exercises = 65536 ∧
      ¬r.1.n_done = count_done r.1.exercises := by
  have hcd : count_done overflowState.exercises = 65535 := by
    rw [overflowState_exercises, count_done_cons, count_done_replicate 65535 rfl]
    decide
  have hinv : overflowState.n_done = count_done overflowState.exercises := by
    rw [hcd]
    decide
  have hcur : overflowState.current_exercise_ind < overflowState.exercises.length := by
    rw [overflowState_length]
    decide
  have hex : overflowState.markCurrentDone.exercises =
      overflowState.exercises.set overflowState.current_exercise_ind
        ⟨"p", "", "", "", true⟩ :=
    markCurrentDone_exercises_of_pending overflowState_getElem rfl
  have hnd0 : overflowState.markCurrentDone.n_done = 0 := by
    rw [markCurrentDone_n_done_of_pending overflowState_getElem rfl]
    decide
  have hall1 : ∀ e ∈ overflowState.markCurrentDone.exercises, e.done = true := by
    apply all_done_of_forall_doneAt
    intro i _
    rw [hex]
    exact doneAt_set_done_all rfl overflowState_tail_done hcur i
  have hcur1 : overflowState.markCurrentDone.current_exercise_ind <
      overflowState.markCurrentDone.exercises.length := by
    rw [markCurrentDone_current_exercise_ind, markCurrentDone_length]
    exact hcur
  have hnp : overflowState.markCurrentDone.next_pending_exercise_ind = some none :=
    next_pending_none_of_all_done hcur1 hall1
  have hrun : overflowState.done_current_exercise (fun _ => true) =
      .ok (overflowState.markCurrentDone, .AllDone, none) := by
    rw [done_current_exercise_verify (fun _ => true) overflowState_getElem hnp,
      verify_loop_all_ok overflowState.markCurrentDone (fun _ => true) (fun _ => rfl)]
  have hcount : count_done overflowState.markCurrentDone.exercises = 65536 := by
    rw [hex, count_done_set_true overflowState_getElem rfl, hcd]
  refine ⟨hinv, hcur,
    ⟨(overflowState.markCurrentDone, .AllDone, none), hrun, hnd0, hcount, ?_⟩⟩
  intro hcontra
  rw [hnd0, hcount] at hcontra
  exact absurd hcontra (by decide)

/-! ### Round-trip machinery: serialization and reconciliation -/

theorem splitOnNl_append {a : List Char} (b : List Char) (hna : '\n' ∉ a) :
    splitOnNl (a ++ '\n' :: b) = a :: splitOnNl b := by
  induction a with
  | nil =>
    show splitOnNl ('\n' :: b) = [] :: splitOnNl b
    simp only [splitOnNl, if_true]
  | cons c cs ih =>
    have hc : ¬c = '\n' := fun h => hna (h ▸ List.mem_cons_self c cs)
    have hcs : '\n' ∉ cs := fun h => hna (List.mem_cons_of_mem _ h)
    show splitOnNl (c :: (cs ++ '\n' :: b)) = (c :: cs) :: splitOnNl b
    simp only [splitOnNl]
    rw [if_neg hc, ih hcs]

theorem splitOnNl_doneLines :
    ∀ l : List Exercise, (∀ e ∈ l, '\n' ∉ e.name.data) →
      splitOnNl (doneLines l) = done_names l ++ [[]] := by
  intro l
  induction l with
  | nil => intro _; rfl
  | cons e es ih =>
    intro h
    have hes := ih fun e' he' => h e' (List.mem_cons_of_mem _ he')
    by_cases hd : e.done
    · show splitOnNl ((if e.done then e.name.data ++ ['\n'] else []) ++ doneLines es) =
        (if e.done then [e.name.data] else []) ++ done_names es ++ [[]]
      rw [if_pos hd, if_pos hd]
      rw [List.append_assoc, List.singleton_append,
        splitOnNl_append _ (h e (List.mem_cons_self e es)), hes]
      rfl
    · show splitOnNl ((if e.done then e.name.data ++ ['\n'] else []) ++ doneLines es) =
        (if e.done then [e.name.data] else []) ++ done_names es ++ [[]]
      rw [if_neg hd, if_neg hd, List.nil_append, List.nil_append, hes]

theorem collect_done_terminated :
    ∀ xs : List (List Char), (∀ x ∈ xs, ¬x = []) →
      collect_done (xs ++ [[]]) = xs := by
  intro xs
  induction xs with
  | nil => intro _; rfl
  | cons x rest ih =>
    intro h
    show collect_done (x :: (rest ++ [[]])) = x :: rest
    unfold collect_done
    have hx : ¬x = [] := h x (List.mem_cons_self x rest)
    rw [if_neg (by simpa [List.isEmpty_iff] using hx),
      ih fun y hy => h y (List.mem_cons_of_mem _ hy)]

theorem mem_done_names :
    ∀ {l : List Exercise} {x : List Char},
      x ∈ done_names l ↔ ∃ e ∈ l, e.done = true ∧ e.name.data = x := by
  intro l
  induction l with
  | nil =>
    intro x
    constructor
    · intro h; cases h
    · rintro ⟨e, he, -, -⟩; cases he
  | cons a as ih =>
    intro x
    constructor
    · intro h
      by_cases hd : a.done
      · rw [show done_names (a :: as) =
            (if a.done then [a.name.data] else []) ++ done_names as from rfl,
          if_pos hd] at h
        rcases List.mem_append.1 h with h | h
        · rcases List.mem_singleton.1 h with rfl
          exact ⟨a, List.mem_cons_self a as, hd, rfl⟩
        · obtain ⟨e, he, hed, hex⟩ := ih.1 h
          exact ⟨e, List.mem_cons_of_mem _ he, hed, hex⟩
      · rw [show done_names (a :: as) =
            (if a.done then [a.name.data] else []) ++ done_names as from rfl,
          if_neg hd, List.nil_append] at h
        obtain ⟨e, he, hed, hex⟩ := ih.1 h
        exact ⟨e, List.mem_cons_of_mem _ he, hed, hex⟩
    · rintro ⟨e, he, hed, hex⟩
      rw [show done_names (a :: as) =
          (if a.done then [a.name.data] else []) ++ done_names as from rfl]
      rcases List.mem_cons.1 he with rfl | he'
      · rw [if_pos hed]
        exact List.mem_append.2 (Or.inl (hex ▸ List.mem_singleton_self _))
      · exact List.mem_append.2 (Or.inr (ih.2 ⟨e, he', hed, hex⟩))

theorem done_names_nonempty {l : List Exercise}
    (h : ∀ e ∈ l, ¬e.name = "") : ∀ x ∈ done_names l, ¬x = [] := by
  intro x hx hxe
  obtain ⟨e, he, -, hex⟩ := mem_done_names.1 hx
  exact h e he (String.ext (hex.trans hxe))

theorem name_index_unique {l : List Exercise}
    (hnd : (l.map fun e => e.name).Nodup)
    {i j : Nat} {e e' : Exercise} (hi : l[i]? = some e) (hj : l[j]? = some e')
    (hn : e'.name = e.name) : j = i := by
  obtain ⟨hil, hie⟩ := List.getElem?_eq_some.1 hi
  obtain ⟨hjl, hje⟩ := List.getElem?_eq_some.1 hj
  have hmi : i < (l.map fun e => e.name).length := by simpa using hil
  have hmj : j < (l.map fun e => e.name).length := by simpa using hjl
  have : (l.map fun e => e.name)[j] = (l.map fun e => e.name)[i] := by
    rw [List.getElem_map, List.getElem_map, hie, hje]
    exact hn
  exact (List.Nodup.getElem_inj_iff hnd).1 this

theorem name_mem_unique {l : List Exercise}
    (hnd : (l.map fun e => e.name).Nodup)
    {e e' : Exercise} (he : e ∈ l) (he' : e' ∈ l) (hn : e'.name = e.name) :
    e' = e := by
  obtain ⟨i, hil, hie⟩ := List.mem_iff_getElem.1 he
  obtain ⟨j, hjl, hje⟩ := List.mem_iff_getElem.1 he'
  have hi : l[i]? = some e := by rw [List.getElem?_eq_getElem hil, hie]
  have hj : l[j]? = some e' := by rw [List.getElem?_eq_getElem hjl, hje]
  have := name_index_unique hnd hi hj hn
  subst this
  rw [← hie, ← hje]

theorem update_loop_cur_no_match (cn : List Char) (ds : List (List Char)) :
    ∀ (l : List Exercise) (ind n c : Nat),
      (∀ e ∈ l, ¬e.name.data = cn) →
      (update_loop cn ds l ind n c).2.2 = c := by
  intro l
  induction l with
  | nil => intro ind n c _; rfl
  | cons e es ih =>
    intro ind n c h
    have hstep : (update_loop cn ds (e :: es) ind n c).2.2 =
        (update_loop cn ds es (ind + 1)
          (if decide (e.name.data ∈ ds) = true then (n + 1) % 65536 else n)
          (if e.name.data = cn then ind else c)).2.2 := rfl
    rw [hstep, if_neg (h e (List.mem_cons_self e es))]
    exact ih (ind + 1) _ c fun e' he' => h e' (List.mem_cons_of_mem _ he')

theorem update_loop_cur_unique (cn : List Char) (ds : List (List Char)) :
    ∀ (l : List Exercise) (ind n c i : Nat) (e : Exercise),
      l[i]? = some e → e.name.data = cn →
      (∀ (j : Nat) (e' : Exercise), l[j]? = some e' → e'.name.data = cn → j = i) →
      (update_loop cn ds l ind n c).2.2 = ind + i := by
  intro l
  induction l with
  | nil => intro ind n c i e hi; simp at hi
  | cons a as ih =>
    intro ind n c i e hi hcn huniq
    have hstep : (update_loop cn ds (a :: as) ind n c).2.2 =
        (update_loop cn ds as (ind + 1)
          (if decide (a.name.data ∈ ds) = true then (n + 1) % 65536 else n)
          (if a.name.data = cn then ind else c)).2.2 := rfl
    rw [hstep]
    match i, hi with
    | 0, hi =>
      simp only [List.getElem?_cons_zero, Option.some.injEq] at hi
      subst hi
      rw [if_pos hcn]
      have hnm : ∀ e' ∈ as, ¬e'.name.data = cn := by
        intro e' he' hcn'
        obtain ⟨j, hjl, hje⟩ := List.mem_iff_getElem.1 he'
        have : as[j]? = some e' := by rw [List.getElem?_eq_getElem hjl, hje]
        have := huniq (j + 1) e' (by simpa using this) hcn'
        exact absurd this (by omega)
      rw [update_loop_cur_no_match cn ds as _ _ _ hnm]
      omega
    | k + 1, hi =>
      simp only [List.getElem?_cons_succ] at hi
      have hna : ¬a.name.data = cn := by
        intro hcn'
        have := huniq 0 a List.getElem?_cons_zero hcn'
        exact absurd this (by omega)
      rw [if_neg hna]
      have huniq' : ∀ (j : Nat) (e' : Exercise), as[j]? = some e' →
          e'.name.data = cn → j = k := by
        intro j e' hj hcn'
        have := huniq (j + 1) e' (by simpa using hj) hcn'
        omega
      rw [ih (ind + 1) _ c k e hi hcn huniq']
      omega

theorem count_match_pointwise (ds : List (List Char)) :
    ∀ l : List Exercise,
      (∀ e ∈ l, (decide (e.name.data ∈ ds) : Bool) = e.done) →
      count_match ds (l.map fun e => mkExercise ⟨e.name, e.path, e.mode, e.hint⟩) =
        count_done l := by
  intro l
  induction l with
  | nil => intro _; rfl
  | cons e es ih =>
    intro h
    have he := h e (List.mem_cons_self e es)
    rw [List.map_cons]
    show (if (mkExercise ⟨e.name, e.path, e.mode, e.hint⟩).name.data ∈ ds then 1 else 0) +
        count_match ds (es.map fun e => mkExercise ⟨e.name, e.path, e.mode, e.hint⟩) =
      (if e.done = true then 1 else 0) + count_done es
    rw [ih fun e' he' => h e' (List.mem_cons_of_mem _ he')]
    have : (mkExercise ⟨e.name, e.path, e.mode, e.hint⟩).name = e.name := rfl
    rw [this]
    by_cases hm : e.name.data ∈ ds
    · rw [if_pos hm]
      rw [if_pos (by rw [← he]; simpa using hm)]
    · rw [if_neg hm]
      rw [if_neg (by rw [← he]; simpa using hm)]

theorem new_reduces (info : List ExerciseInfo) {cn content : List Char}
    {rest : List (List Char)}
    (hs : splitOnNl content = cn :: [] :: rest) :
    AppState.new info (some content) =
      { current_exercise_ind :=
          (update_loop cn (collect_done rest) (info.map mkExercise) 0 0 0).2.2,
        exercises :=
          (update_loop cn (collect_done rest) (info.map mkExercise) 0 0 0).1,
        n_done :=
          (update_loop cn (collect_done rest) (info.map mkExercise) 0 0 0).2.1 } := by
  unfold AppState.new AppState.update_from_file
  simp only [hs]

/-- C2 (amended): persisting a state and reconciling a freshly constructed
machine over the same registry reproduces the cursor, the done flags and
`n_done`, provided the exercise names are unique, newline-free and
non-empty.  (The claim as stated omits non-emptiness: an empty name writes
an empty line, which terminates the done-name section early on reload — see
the counterexample.)  The cursor bound and the `n_done` bookkeeping
hypotheses are the program invariants of any reachable state. -/
theorem C2_round_trip (s : AppState)
    (hcur : s.current_exercise_ind < s.exercises.length)
    (hwf : s.n_done = count_done s.exercises)
    (hlen : s.exercises.length < 65536)
    (hnodup : (s.exercises.map fun e => e.name).Nodup)
    (hnl : ∀ e ∈ s.exercises, '\n' ∉ e.name.data)
    (hne : ∀ e ∈ s.exercises, ¬e.name = "") :
    ∃ content, s.write = .ok content ∧
      ((AppState.new (s.exercises.map fun e => ⟨e.name, e.path, e.mode, e.hint⟩)
          (some content)).current_exercise_ind = s.current_exercise_ind ∧
       (∀ i, doneAt (AppState.new (s.exercises.map fun e => ⟨e.name, e.path, e.mode, e.hint⟩)
          (some content)).exercises i = doneAt s.exercises i) ∧
       (AppState.new (s.exercises.map fun e => ⟨e.name, e.path, e.mode, e.hint⟩)
          (some content)).n_done = s.n_done) := by
  obtain ⟨curE, hcurE, hw⟩ := write_ok hcur
  refine ⟨_, hw, ?_⟩
  have hsplit : splitOnNl (curE.name.data ++ ['\n', '\n'] ++ doneLines s.exercises) =
      curE.name.data :: [] :: (done_names s.exercises ++ [[]]) := by
    have h1 : curE.name.data ++ ['\n', '\n'] ++ doneLines s.exercises =
        curE.name.data ++ '\n' :: ('\n' :: doneLines s.exercises) := by
      simp
    rw [h1, splitOnNl_append _ (hnl curE (mem_of_getElem? hcurE))]
    have h2 : ('\n' :: doneLines s.exercises) =
        [] ++ '\n' :: doneLines s.exercises := rfl
    rw [h2, splitOnNl_append _ (by simp), splitOnNl_doneLines s.exercises hnl]
  have hds : collect_done (done_names s.exercises ++ [[]]) = done_names s.exercises :=
    collect_done_terminated _ (done_names_nonempty hne)
  rw [new_reduces (s.exercises.map fun e => ⟨e.name, e.path, e.mode, e.hint⟩) hsplit,
    hds]
  have hbase2 : ((s.exercises.map fun e =>
        (⟨e.name, e.path, e.mode, e.hint⟩ : ExerciseInfo)).map mkExercise) =
      s.exercises.map fun e => mkExercise ⟨e.name, e.path, e.mode, e.hint⟩ := by
    rw [List.map_map]
    rfl
  have hpoint : ∀ e ∈ s.exercises,
      (decide (e.name.data ∈ done_names s.exercises) : Bool) = e.done := by
    intro e he
    by_cases hd : e.done
    · rw [hd]
      simp only [decide_eq_true_eq]
      exact mem_done_names.2 ⟨e, he, hd, rfl⟩
    · have hd' : e.done = false := by simpa using hd
      rw [hd']
      simp only [decide_eq_false_iff_not]
      intro hmem
      obtain ⟨e', he', hed', hex'⟩ := mem_done_names.1 hmem
      have heq : e' = e := name_mem_unique hnodup he he' (String.ext hex')
      rw [heq, hd'] at hed'
      exact absurd hed' (by simp)
  refine ⟨?_, ?_, ?_⟩
  · -- the cursor is restored
    show (update_loop curE.name.data (done_names s.exercises)
        ((s.exercises.map fun e => (⟨e.name, e.path, e.mode, e.hint⟩ : ExerciseInfo)).map
          mkExercise) 0 0 0).2.2 = s.current_exercise_ind
    rw [hbase2]
    have hbi : (s.exercises.map fun e =>
        mkExercise ⟨e.name, e.path, e.mode, e.hint⟩)[s.current_exercise_ind]? =
        some (mkExercise ⟨curE.name, curE.path, curE.mode, curE.hint⟩) := by
      rw [List.getElem?_map, hcurE, Option.map_some']
    have huniq : ∀ (j : Nat) (e' : Exercise),
        (s.exercises.map fun e =>
          mkExercise ⟨e.name, e.path, e.mode, e.hint⟩)[j]? = some e' →
        e'.name.data = curE.name.data → j = s.current_exercise_ind := by
      intro j e' hj hd
      rw [List.getElem?_map] at hj
      cases hje : s.exercises[j]? with
      | none => rw [hje] at hj; exact absurd hj (by simp)
      | some a =>
        rw [hje, Option.map_some'] at hj
        have ha : e' = mkExercise ⟨a.name, a.path, a.mode, a.hint⟩ :=
          (Option.some.inj hj).symm
        have han : a.name = curE.name := by
          apply String.ext
          have : e'.name = a.name := by rw [ha]; rfl
          rw [← this]
          exact hd
        exact name_index_unique hnodup hcurE hje han
    rw [update_loop_cur_unique curE.name.data (done_names s.exercises) _ 0 0 0
      s.current_exercise_ind (mkExercise ⟨curE.name, curE.path, curE.mode, curE.hint⟩)
      hbi rfl huniq]
    omega
  · -- the done flags are restored
    intro i
    show doneAt (update_loop curE.name.data (done_names s.exercises)
        ((s.exercises.map fun e => (⟨e.name, e.path, e.mode, e.hint⟩ : ExerciseInfo)).map
          mkExercise) 0 0 0).1 i = doneAt s.exercises i
    rw [update_loop_exercises, hbase2, List.map_map]
    unfold doneAt
    rw [List.getElem?_map]
    cases he : s.exercises[i]? with
    | none => rfl
    | some e =>
      rw [Option.map_some']
      show (if decide ((mkExercise ⟨e.name, e.path, e.mode, e.hint⟩).name.data ∈
          done_names s.exercises) = true
        then { mkExercise ⟨e.name, e.path, e.mode, e.hint⟩ with done := true }
        else mkExercise ⟨e.name, e.path, e.mode, e.hint⟩).done = e.done
      have hp : (decide (e.name.data ∈ done_names s.exercises) : Bool) = e.done :=
        hpoint e (mem_of_getElem? he)
      by_cases hd : e.done
      · rw [show (mkExercise ⟨e.name, e.path, e.mode, e.hint⟩).name.data =
            e.name.data from rfl]
        rw [if_pos (by rw [hp]; exact hd)]
        rw [hd]
      · have hd' : e.done = false := by simpa using hd
        rw [show (mkExercise ⟨e.name, e.path, e.mode, e.hint⟩).name.data =
            e.name.data from rfl]
        rw [if_neg (by rw [hp, hd']; simp)]
        rw [hd']
        rfl
  · -- the done counter is restored
    show (update_loop curE.name.data (done_names s.exercises)
        ((s.exercises.map fun e => (⟨e.name, e.path, e.mode, e.hint⟩ : ExerciseInfo)).map
          mkExercise) 0 0 0).2.1 = s.n_done
    rw [update_loop_n_done _ _ _ _ _ _ (by omega), hbase2,
      count_match_pointwise _ _ hpoint, Nat.zero_add,
      Nat.mod_eq_of_lt (Nat.lt_of_le_of_lt (count_done_le_length _) hlen), hwf]

/-- Witness for the amended C2: the four-exercise demo state round-trips. -/
theorem C2_round_trip_witness :
    ∃ content, demoABCD.write = .ok content ∧
      ((AppState.new (demoABCD.exercises.map fun e => ⟨e.name, e.path, e.mode, e.hint⟩)
          (some content)).current_exercise_ind = demoABCD.current_exercise_ind ∧
       (∀ i, doneAt (AppState.new
          (demoABCD.exercises.map fun e => ⟨e.name, e.path, e.mode, e.hint⟩)
          (some content)).exercises i = doneAt demoABCD.exercises i) ∧
       (AppState.new (demoABCD.exercises.map fun e => ⟨e.name, e.path, e.mode, e.hint⟩)
          (some content)).n_done = demoABCD.n_done) :=
  C2_round_trip demoABCD (by decide) (by decide) (by decide) (by decide) (by decide)
    (by decide)

/-- Counterexample to C2 as stated: a registry whose single exercise has the
(unique, newline-free) empty name.  Writing the done state produces three
newlines; reloading parses an empty done-name line, stops collecting, and
loses both the done flag and the count. -/
theorem C2_round_trip_counterexample :
    emptyNameState.current_exercise_ind < emptyNameState.exercises.length ∧
    emptyNameState.n_done = count_done emptyNameState.exercises ∧
    (emptyNameState.exercises.map fun e => e.name).Nodup ∧
    (∀ e ∈ emptyNameState.exercises, '\n' ∉ e.name.data) ∧
    ∃ content, emptyNameState.write = .ok content ∧
      ¬(AppState.new emptyNameInfo (some content)).n_done = emptyNameState.n_done ∧
      ¬doneAt (AppState.new emptyNameInfo (some content)).exercises 0 =
        doneAt emptyNameState.exercises 0 :=
  ⟨by decide, by decide, by decide, by decide,
   ⟨['\n', '\n', '\n'], by decide, by decide, by decide⟩⟩

end Rustlings
